import Mathlib

/-!
Verification development for the luring-talk repository.

The SDP reducer and QR codec live in src/utils/network.ts; the negotiation
controller lives in src/App.tsx. JavaScript strings are modelled as Lean
strings (lists of code points); JavaScript built-ins that the code calls
(JSON.parse, JSON.stringify, atob, TextDecoder, decodeURIComponent, the
lz-string library) are modelled by executable Lean functions below, each
carrying a comment describing the modelled subset.
-/

/-! ## Basic character and string helpers (JavaScript semantics) -/

/-- Whitespace characters recognised by the model of the JavaScript
String.prototype.trim and the regex class backslash-s (ASCII subset). -/
def isJsWs (c : Char) : Bool :=
  c = ' ' || c = '\t' || c = '\n' || c = '\r' || c = '\x0b' || c = '\x0c'

def jsTrimL (l : List Char) : List Char :=
  ((l.dropWhile isJsWs).reverse.dropWhile isJsWs).reverse

def ofChars (l : List Char) : String := ⟨l⟩

/-- Model of the JavaScript String.prototype.trim. -/
def jsTrim (s : String) : String := ofChars (jsTrimL s.data)

/-- Boolean list prefix test, first argument is the pattern. -/
def hasPrefixL : List Char → List Char → Bool
  | [], _ => true
  | _ :: _, [] => false
  | p :: ps, c :: cs => p = c && hasPrefixL ps cs

/-- Model of the JavaScript String.prototype.startsWith. -/
def jsStartsWith (s pat : String) : Bool := hasPrefixL pat.data s.data

/-- Substring test on lists, first argument is the pattern (needle). -/
def hasSubstrL (pat : List Char) : List Char → Bool
  | [] => pat.isEmpty
  | c :: cs => hasPrefixL pat (c :: cs) || hasSubstrL pat cs

/-- Model of the JavaScript String.prototype.includes. -/
def jsIncludes (s pat : String) : Bool := hasSubstrL pat.data s.data

def splitOnCharAux (sep : Char) : List Char → List Char → List (List Char)
  | [], acc => [acc.reverse]
  | c :: cs, acc =>
    if c = sep then acc.reverse :: splitOnCharAux sep cs []
    else splitOnCharAux sep cs (c :: acc)

/-- Model of the JavaScript String.prototype.split with a one-character
separator (keeps empty pieces, as JavaScript does). -/
def splitOnChar (sep : Char) (s : String) : List String :=
  (splitOnCharAux sep s.data []).map ofChars

def splitLines (s : String) : List String := splitOnChar '\n' s

def joinNl : List String → String
  | [] => ""
  | [s] => s
  | s :: t :: tl => s ++ "\n" ++ joinNl (t :: tl)

/-- Worker for the global replace: the counter skips over the tail of a
pattern occurrence already emitted (pattern is p followed by ps). -/
def replaceAllAux (p : Char) (ps rep : List Char) : List Char → Nat → List Char
  | [], _ => []
  | _ :: cs, k + 1 => replaceAllAux p ps rep cs k
  | c :: cs, 0 =>
    if hasPrefixL (p :: ps) (c :: cs) then rep ++ replaceAllAux p ps rep cs ps.length
    else c :: replaceAllAux p ps rep cs 0

/-- Model of the JavaScript String.prototype.replace with a global literal
pattern (nonempty, written as head and tail): leftmost-match scan, matched
text replaced, scan resumes after the match. -/
def replaceAllL (p : Char) (ps rep : List Char) (l : List Char) : List Char :=
  replaceAllAux p ps rep l 0

def digitVal (c : Char) : Nat := c.toNat - 48

def digitsValL (l : List Char) : Nat := l.foldl (fun a c => 10 * a + digitVal c) 0

/-- Split off the maximal leading run of ASCII digits. -/
def takeDigitsRun : List Char → List Char × List Char
  | [] => ([], [])
  | c :: cs =>
    if c.isDigit then
      let r := takeDigitsRun cs
      (c :: r.1, r.2)
    else ([], c :: cs)

def digitChar10 (n : Nat) : Char := Char.ofNat (48 + n)

def natDigitsAux : Nat → Nat → List Char
  | 0, _ => []
  | f + 1, n =>
    if n < 10 then [digitChar10 n]
    else natDigitsAux f (n / 10) ++ [digitChar10 (n % 10)]

/-- Decimal digits of a natural number, most significant first. -/
def natDigits (n : Nat) : List Char := natDigitsAux (n + 1) n

def hexDigitVal (c : Char) : Option Nat :=
  if '0' ≤ c ∧ c ≤ '9' then some (c.toNat - 48)
  else if 'a' ≤ c ∧ c ≤ 'f' then some (c.toNat - 87)
  else if 'A' ≤ c ∧ c ≤ 'F' then some (c.toNat - 55)
  else none

def isHexDigit (c : Char) : Bool := (hexDigitVal c).isSome

def hexCharLower (n : Nat) : Char :=
  if n < 10 then Char.ofNat (48 + n) else Char.ofNat (87 + n)

def hexCharUpper (n : Nat) : Char :=
  if n < 10 then Char.ofNat (48 + n) else Char.ofNat (55 + n)

/-! ## JSON model

JSON values as produced by the JavaScript JSON.parse and consumed by
JSON.stringify. Modelled subset: numbers are restricted to unsigned decimal
integer literals (the repository's payloads contain only string fields);
objects are association lists in source order, field lookup takes the last
binding (JavaScript duplicate-key semantics); string escapes cover the
standard single-character escapes and backslash-u of a non-surrogate code
point. -/

inductive Json where
  | null : Json
  | bool : Bool → Json
  | num : Nat → Json
  | str : String → Json
  | arr : List Json → Json
  | obj : List (String × Json) → Json
deriving Repr, Inhabited

mutual
def beqJson : Json → Json → Bool
  | .null, .null => true
  | .bool a, .bool b => a == b
  | .num a, .num b => a == b
  | .str a, .str b => a == b
  | .arr xs, .arr ys => beqJsonList xs ys
  | .obj fs, .obj gs => beqJsonFields fs gs
  | _, _ => false
def beqJsonList : List Json → List Json → Bool
  | [], [] => true
  | x :: xs, y :: ys => beqJson x y && beqJsonList xs ys
  | _, _ => false
def beqJsonFields : List (String × Json) → List (String × Json) → Bool
  | [], [] => true
  | (k, v) :: xs, (j, w) :: ys => k == j && beqJson v w && beqJsonFields xs ys
  | _, _ => false
end

theorem beqJsonList_iff (xs ys : List Json)
    (ih : ∀ x ∈ xs, ∀ b, beqJson x b = true ↔ x = b) :
    beqJsonList xs ys = true ↔ xs = ys := by
  induction xs generalizing ys with
  | nil => cases ys <;> simp [beqJsonList]
  | cons x xs ihl =>
    cases ys with
    | nil => simp [beqJsonList]
    | cons y ys =>
      simp only [beqJsonList, Bool.and_eq_true, List.cons.injEq]
      rw [ih x (by simp) y, ihl ys (fun z hz b => ih z (List.mem_cons_of_mem x hz) b)]

theorem beqJsonFields_iff (xs ys : List (String × Json))
    (ih : ∀ kv ∈ xs, ∀ b, beqJson kv.2 b = true ↔ kv.2 = b) :
    beqJsonFields xs ys = true ↔ xs = ys := by
  induction xs generalizing ys with
  | nil => cases ys <;> simp [beqJsonFields]
  | cons kv xs ihl =>
    cases ys with
    | nil => simp [beqJsonFields]
    | cons jw ys =>
      obtain ⟨k, v⟩ := kv
      obtain ⟨j, w⟩ := jw
      simp only [beqJsonFields, Bool.and_eq_true, List.cons.injEq, beq_iff_eq,
        Prod.mk.injEq]
      rw [ih (k, v) (by simp) w, ihl ys (fun z hz b => ih z (List.mem_cons_of_mem _ hz) b)]

theorem beqJson_iff_aux :
    ∀ n, ∀ a b : Json, sizeOf a ≤ n → (beqJson a b = true ↔ a = b) := by
  intro n
  induction n using Nat.strong_induction_on with
  | _ n ih =>
    intro a b hs
    cases a with
    | null => cases b <;> simp [beqJson]
    | bool x => cases b <;> simp [beqJson]
    | num x => cases b <;> simp [beqJson]
    | str x => cases b <;> simp [beqJson]
    | arr xs =>
      cases b <;> simp only [beqJson] <;> try simp
      case arr ys =>
        have hsub : ∀ x ∈ xs, ∀ c, beqJson x c = true ↔ x = c := by
          intro x hx c
          have hlt : sizeOf x < sizeOf (Json.arr xs) := by
            have := List.sizeOf_lt_of_mem hx
            simp only [Json.arr.sizeOf_spec]
            omega
          exact ih (sizeOf x) (by omega) x c (le_refl _)
        rw [beqJsonList_iff xs ys hsub]
    | obj fs =>
      cases b <;> simp only [beqJson] <;> try simp
      case obj gs =>
        have hsub : ∀ kv ∈ fs, ∀ c, beqJson kv.2 c = true ↔ kv.2 = c := by
          intro kv hkv c
          have hlt : sizeOf kv.2 < sizeOf (Json.obj fs) := by
            have h1 := List.sizeOf_lt_of_mem hkv
            obtain ⟨k, v⟩ := kv
            simp only [Json.obj.sizeOf_spec, Prod.mk.sizeOf_spec] at *
            omega
          exact ih (sizeOf kv.2) (by omega) kv.2 c (le_refl _)
        rw [beqJsonFields_iff fs gs hsub]

theorem beqJson_iff (a b : Json) : beqJson a b = true ↔ a = b :=
  beqJson_iff_aux (sizeOf a) a b (le_refl _)

instance : DecidableEq Json := fun a b =>
  decidable_of_iff (beqJson a b = true) (beqJson_iff a b)

/-- JavaScript truthiness of a JSON value. -/
def Json.truthy : Json → Bool
  | .null => false
  | .bool b => b
  | .num n => n ≠ 0
  | .str s => s ≠ ""
  | .arr _ => true
  | .obj _ => true

/-- Last binding of a key, the value a JavaScript property read sees after
JSON.parse (later duplicate keys overwrite earlier ones). -/
def lookupLast : List (String × Json) → String → Option Json
  | [], _ => none
  | (k, v) :: tl, key =>
    match lookupLast tl key with
    | some r => some r
    | none => if k = key then some v else none

/-- Model of a JavaScript property read on an arbitrary JSON value: only an
object yields a field, everything else reads as undefined. -/
def getFieldJ : Json → String → Option Json
  | .obj fs, k => lookupLast fs k
  | _, _ => none

def setPairs : List (String × Json) → String → Json → List (String × Json)
  | [], _, _ => []
  | (k, w) :: tl, key, v =>
    if k = key then (k, v) :: setPairs tl key v else (k, w) :: setPairs tl key v

/-- Model of a JavaScript property assignment on an object (only reached on
objects that already carry the key, which is how the source uses it). -/
def setFieldJ : Json → String → Json → Json
  | .obj fs, k, v => .obj (setPairs fs k v)
  | j, _, _ => j

/-- One character of the JSON.stringify string escaping. -/
def escCharJ (c : Char) : List Char :=
  if c = '"' then ['\\', '"']
  else if c = '\\' then ['\\', '\\']
  else if c = '\n' then ['\\', 'n']
  else if c = '\r' then ['\\', 'r']
  else if c = '\t' then ['\\', 't']
  else if c = '\x08' then ['\\', 'b']
  else if c = '\x0c' then ['\\', 'f']
  else if c.toNat < 32 then
    ['\\', 'u', '0', '0', hexCharLower (c.toNat / 16), hexCharLower (c.toNat % 16)]
  else [c]

def escStrJ : List Char → List Char
  | [] => []
  | c :: cs => escCharJ c ++ escStrJ cs

def svStr (s : String) : List Char := '"' :: (escStrJ s.data ++ ['"'])

mutual
def svJson : Json → List Char
  | .null => "null".data
  | .bool true => "true".data
  | .bool false => "false".data
  | .num n => natDigits n
  | .str s => svStr s
  | .arr xs => '[' :: (svItems xs ++ [']'])
  | .obj fs => '{' :: (svFields fs ++ ['}'])
def svItems : List Json → List Char
  | [] => []
  | [x] => svJson x
  | x :: y :: tl => svJson x ++ ',' :: svItems (y :: tl)
def svFields : List (String × Json) → List Char
  | [] => []
  | [(k, v)] => svStr k ++ ':' :: svJson v
  | (k, v) :: f :: tl => (svStr k ++ ':' :: svJson v) ++ ',' :: svFields (f :: tl)
end

/-- Model of JSON.stringify. -/
def Json.stringify (j : Json) : String := ofChars (svJson j)

/-- JSON whitespace (the four characters the JSON grammar allows). -/
def skipWsJ (l : List Char) : List Char :=
  l.dropWhile (fun c => c = ' ' || c = '\t' || c = '\n' || c = '\r')

def consFst (c : Char) (r : List Char × List Char) : List Char × List Char :=
  (c :: r.1, r.2)

/-- Body of a JSON string literal after the opening quote; returns the
decoded characters and the input after the closing quote. -/
def pStrBody : List Char → Option (List Char × List Char)
  | [] => none
  | c :: rest =>
    if c = '"' then some ([], rest)
    else if c = '\\' then
      match rest with
      | [] => none
      | e :: rest2 =>
        if e = '"' then (pStrBody rest2).map (consFst '"')
        else if e = '\\' then (pStrBody rest2).map (consFst '\\')
        else if e = '/' then (pStrBody rest2).map (consFst '/')
        else if e = 'n' then (pStrBody rest2).map (consFst '\n')
        else if e = 'r' then (pStrBody rest2).map (consFst '\r')
        else if e = 't' then (pStrBody rest2).map (consFst '\t')
        else if e = 'b' then (pStrBody rest2).map (consFst '\x08')
        else if e = 'f' then (pStrBody rest2).map (consFst '\x0c')
        else if e = 'u' then
          match rest2 with
          | h1 :: h2 :: h3 :: h4 :: rest3 =>
            match hexDigitVal h1, hexDigitVal h2, hexDigitVal h3, hexDigitVal h4 with
            | some a, some b, some c2, some d =>
              let n := ((a * 16 + b) * 16 + c2) * 16 + d
              if 0xd800 ≤ n ∧ n < 0xe000 then none
              else (pStrBody rest3).map (consFst (Char.ofNat n))
            | _, _, _, _ => none
          | _ => none
        else none
    else if c.toNat < 32 then none
    else (pStrBody rest).map (consFst c)

mutual
def pVal : Nat → List Char → Option (Json × List Char)
  | 0, _ => none
  | f + 1, l =>
    match skipWsJ l with
    | [] => none
    | c :: rest =>
      if c = 'n' then
        match rest with
        | 'u' :: 'l' :: 'l' :: r => some (.null, r)
        | _ => none
      else if c = 't' then
        match rest with
        | 'r' :: 'u' :: 'e' :: r => some (.bool true, r)
        | _ => none
      else if c = 'f' then
        match rest with
        | 'a' :: 'l' :: 's' :: 'e' :: r => some (.bool false, r)
        | _ => none
      else if c = '"' then (pStrBody rest).map (fun r => (.str (ofChars r.1), r.2))
      else if c = '[' then (pItems f rest).map (fun r => (.arr r.1, r.2))
      else if c = '{' then (pFieldList f rest).map (fun r => (.obj r.1, r.2))
      else if c.isDigit then
        let r := takeDigitsRun (c :: rest)
        some (.num (digitsValL r.1), r.2)
      else none
def pItems : Nat → List Char → Option (List Json × List Char)
  | 0, _ => none
  | f + 1, l =>
    let l2 := skipWsJ l
    if hasPrefixL [']'] l2 then some ([], l2.drop 1)
    else
      match pVal f l2 with
      | none => none
      | some (v, r) =>
        match pMoreItems f r with
        | none => none
        | some (vs, r2) => some (v :: vs, r2)
def pMoreItems : Nat → List Char → Option (List Json × List Char)
  | 0, _ => none
  | f + 1, l =>
    let l2 := skipWsJ l
    if hasPrefixL [']'] l2 then some ([], l2.drop 1)
    else if hasPrefixL [','] l2 then
      match pVal f (l2.drop 1) with
      | none => none
      | some (v, r) =>
        match pMoreItems f r with
        | none => none
        | some (vs, r2) => some (v :: vs, r2)
    else none
def pField : Nat → List Char → Option ((String × Json) × List Char)
  | 0, _ => none
  | f + 1, l =>
    let l2 := skipWsJ l
    if hasPrefixL ['"'] l2 then
      match pStrBody (l2.drop 1) with
      | none => none
      | some (k, r) =>
        let r2 := skipWsJ r
        if hasPrefixL [':'] r2 then
          match pVal f (r2.drop 1) with
          | none => none
          | some (v, r3) => some ((ofChars k, v), r3)
        else none
    else none
def pFieldList : Nat → List Char → Option (List (String × Json) × List Char)
  | 0, _ => none
  | f + 1, l =>
    let l2 := skipWsJ l
    if hasPrefixL ['}'] l2 then some ([], l2.drop 1)
    else
      match pField f l2 with
      | none => none
      | some (kv, r) =>
        match pMoreFields f r with
        | none => none
        | some (fs, r2) => some (kv :: fs, r2)
def pMoreFields : Nat → List Char → Option (List (String × Json) × List Char)
  | 0, _ => none
  | f + 1, l =>
    let l2 := skipWsJ l
    if hasPrefixL ['}'] l2 then some ([], l2.drop 1)
    else if hasPrefixL [','] l2 then
      match pField f (l2.drop 1) with
      | none => none
      | some (kv, r) =>
        match pMoreFields f r with
        | none => none
        | some (fs, r2) => some (kv :: fs, r2)
    else none
end

/-- Model of JSON.parse: parse one value, then require only whitespace to
remain; any parse error (an exception in JavaScript) is none. -/
def jsonParse (s : String) : Option Json :=
  match pVal (3 * s.data.length + 3) s.data with
  | none => none
  | some (v, rest) => if skipWsJ rest = [] then some v else none

/-! ## Compression transform model (the lz-string dependency) -/

def b64AlphabetChars : List Char :=
  "ABCDEFGHIJKLMNOPQRSTUVWXYZabcdefghijklmnopqrstuvwxyz0123456789+/".data

def alphaChar (n : Nat) : Char := b64AlphabetChars.getD n 'A'

def alphaIdxAux : List Char → Nat → Char → Option Nat
  | [], _, _ => none
  | a :: tl, i, c => if a = c then some i else alphaIdxAux tl (i + 1) c

def alphaIdx (c : Char) : Option Nat := alphaIdxAux b64AlphabetChars 0 c

/-- Little-endian base-32 digits of a code point over the base64 alphabet;
the final digit carries a plus-32 terminator flag. -/
def encVar (n : Nat) : List Char :=
  if h : n < 32 then [alphaChar (n + 32)]
  else alphaChar (n % 32) :: encVar (n / 32)
decreasing_by exact Nat.div_lt_self (by omega) (by omega)

def decVar : List Char → Option (Nat × List Char)
  | [] => none
  | c :: cs =>
    match alphaIdx c with
    | none => none
    | some d =>
      if d ≥ 32 then some (d - 32, cs)
      else (decVar cs).map (fun r => (d + 32 * r.1, r.2))

def lzEncodeChars : List Char → List Char
  | [] => []
  | c :: cs => encVar c.toNat ++ lzEncodeChars cs

/-- Modelled from the spec: the general-purpose reversible text-compression
transform with a printable transport-safe output alphabet (step 4 and 5 of
encode in section 4.2; the lz-string library, which is a dependency, not a
source file of this repository). The model emits only base64-alphabet
characters and is exactly inverted by decompressFromBase64 below, which is
the only contract the repository code relies on. -/
def compressToBase64 (s : String) : String := ofChars (lzEncodeChars s.data)

def lzDecodeAux : Nat → List Char → Option (List Char)
  | _, [] => some []
  | 0, _ :: _ => none
  | f + 1, l =>
    match decVar l with
    | none => none
    | some (n, r) =>
      match lzDecodeAux f r with
      | none => none
      | some tl => some (Char.ofNat n :: tl)

/-- Modelled from the spec: the inverse of the compression transform (the
lz-string decompressFromBase64). A string outside the image of the
transform (for example one containing a character outside the base64
alphabet) decodes to none, which the caller treats the same way it treats
the garbage or empty output the real library produces there: the
decompression branch is abandoned and the direct parse is attempted. -/
def decompressFromBase64 (s : String) : Option String :=
  (lzDecodeAux s.data.length s.data).map ofChars

/-! ## Platform built-ins used by the decoder -/

/-- Strict UTF-8 decoding of a byte list; none on any malformed sequence. -/
def utf8DecodeStrict : List Nat → Option (List Char)
  | [] => some []
  | b :: bs =>
    if b < 0x80 then (utf8DecodeStrict bs).map (Char.ofNat b :: ·)
    else if 0xc2 ≤ b ∧ b ≤ 0xdf then
      match bs with
      | b2 :: bs2 =>
        if 0x80 ≤ b2 ∧ b2 ≤ 0xbf then
          (utf8DecodeStrict bs2).map (Char.ofNat ((b - 0xc0) * 64 + (b2 - 0x80)) :: ·)
        else none
      | [] => none
    else if 0xe0 ≤ b ∧ b ≤ 0xef then
      match bs with
      | b2 :: b3 :: bs3 =>
        let lo2 := if b = 0xe0 then 0xa0 else 0x80
        let hi2 := if b = 0xed then 0x9f else 0xbf
        if (lo2 ≤ b2 ∧ b2 ≤ hi2) ∧ (0x80 ≤ b3 ∧ b3 ≤ 0xbf) then
          (utf8DecodeStrict bs3).map
            (Char.ofNat (((b - 0xe0) * 64 + (b2 - 0x80)) * 64 + (b3 - 0x80)) :: ·)
        else none
      | _ => none
    else if 0xf0 ≤ b ∧ b ≤ 0xf4 then
      match bs with
      | b2 :: b3 :: b4 :: bs4 =>
        let lo2 := if b = 0xf0 then 0x90 else 0x80
        let hi2 := if b = 0xf4 then 0x8f else 0xbf
        if (lo2 ≤ b2 ∧ b2 ≤ hi2) ∧ (0x80 ≤ b3 ∧ b3 ≤ 0xbf) ∧ (0x80 ≤ b4 ∧ b4 ≤ 0xbf) then
          (utf8DecodeStrict bs4).map
            (Char.ofNat ((((b - 0xf0) * 64 + (b2 - 0x80)) * 64 + (b3 - 0x80)) * 64 + (b4 - 0x80)) :: ·)
        else none
      | _ => none
    else none

/-- One UTF-8 sequence starting at lead byte b with following bytes bs:
the decoded character and the number of continuation bytes consumed, or
none when the sequence is malformed at this position. -/
def utf8Step (b : Nat) (bs : List Nat) : Option (Char × Nat) :=
  if b < 0x80 then some (Char.ofNat b, 0)
  else if 0xc2 ≤ b ∧ b ≤ 0xdf then
    match bs with
    | b2 :: _ =>
      if 0x80 ≤ b2 ∧ b2 ≤ 0xbf then some (Char.ofNat ((b - 0xc0) * 64 + (b2 - 0x80)), 1)
      else none
    | [] => none
  else if 0xe0 ≤ b ∧ b ≤ 0xef then
    match bs with
    | b2 :: b3 :: _ =>
      if ((if b = 0xe0 then 0xa0 else 0x80) ≤ b2 ∧ b2 ≤ (if b = 0xed then 0x9f else 0xbf))
          ∧ (0x80 ≤ b3 ∧ b3 ≤ 0xbf) then
        some (Char.ofNat (((b - 0xe0) * 64 + (b2 - 0x80)) * 64 + (b3 - 0x80)), 2)
      else none
    | _ => none
  else if 0xf0 ≤ b ∧ b ≤ 0xf4 then
    match bs with
    | b2 :: b3 :: b4 :: _ =>
      if ((if b = 0xf0 then 0x90 else 0x80) ≤ b2 ∧ b2 ≤ (if b = 0xf4 then 0x8f else 0xbf))
          ∧ (0x80 ≤ b3 ∧ b3 ≤ 0xbf) ∧ (0x80 ≤ b4 ∧ b4 ≤ 0xbf) then
        some (Char.ofNat ((((b - 0xf0) * 64 + (b2 - 0x80)) * 64 + (b3 - 0x80)) * 64 + (b4 - 0x80)), 3)
      else none
    | _ => none
  else none

def utf8DecodeReplaceAux : Nat → List Nat → List Char
  | 0, _ => []
  | _ + 1, [] => []
  | f + 1, b :: bs =>
    match utf8Step b bs with
    | some (c, k) => c :: utf8DecodeReplaceAux f (bs.drop k)
    | none => '\uFFFD' :: utf8DecodeReplaceAux f bs

/-- Modelled from the spec: TextDecoder with the utf-8 label in its default
non-fatal mode, which never throws and substitutes U+FFFD for malformed
sequences (simplified substitution: one replacement character per rejected
lead byte, resuming at the next byte). -/
def utf8DecodeReplace (l : List Nat) : List Char := utf8DecodeReplaceAux l.length l

/-- UTF-8 bytes of a code point. -/
def utf8EncodeChar (n : Nat) : List Nat :=
  if n < 0x80 then [n]
  else if n < 0x800 then [0xc0 + n / 64, 0x80 + n % 64]
  else if n < 0x10000 then [0xe0 + n / 4096, 0x80 + n / 64 % 64, 0x80 + n % 64]
  else [0xf0 + n / 262144, 0x80 + n / 4096 % 64, 0x80 + n / 64 % 64, 0x80 + n % 64]

def utf8Bytes (s : String) : List Nat := s.data.flatMap (fun c => utf8EncodeChar c.toNat)

def isB64SetChar (c : Char) : Bool :=
  c.isAlpha || c.isDigit || c = '+' || c = '/' || c = '='

def b64Chunk3 (a b c d : Nat) : List Nat :=
  [a * 4 + b / 16, b % 16 * 16 + c / 4, c % 4 * 64 + d]

def atobCore : List Char → Option (List Nat)
  | [] => some []
  | [c1, c2] =>
    match alphaIdx c1, alphaIdx c2 with
    | some a, some b => some [a * 4 + b / 16]
    | _, _ => none
  | [c1, c2, c3] =>
    match alphaIdx c1, alphaIdx c2, alphaIdx c3 with
    | some a, some b, some c => some [a * 4 + b / 16, b % 16 * 16 + c / 4]
    | _, _, _ => none
  | c1 :: c2 :: c3 :: c4 :: rest =>
    match alphaIdx c1, alphaIdx c2, alphaIdx c3, alphaIdx c4 with
    | some a, some b, some c, some d =>
      (atobCore rest).map (fun tl => b64Chunk3 a b c d ++ tl)
    | _, _, _, _ => none
  | [_] => none

/-- Modelled from the spec: the platform atob base64 decoder (naive base64
re-wrapping fallback, item d of the candidate list in section 4.2). Strips
trailing padding, decodes four-character groups to bytes, returns the bytes
as a one-character-per-byte binary string, none on invalid input. Its exact
behaviour never settles a claim: in every settled scenario the candidate it
contributes sits behind an earlier candidate that already succeeds, or is
never pushed. -/
def atobModel (s : String) : Option String :=
  let body := (s.data.reverse.dropWhile (· = '=')).reverse
  (atobCore body).map (fun bytes => ofChars (bytes.map Char.ofNat))

def pctHexPair (n : Nat) : List Char := ['%', hexCharUpper (n / 16), hexCharUpper (n % 16)]

def isUnreservedURI (c : Char) : Bool :=
  c.isAlpha || c.isDigit || c = '-' || c = '_' || c = '.' || c = '!' ||
  c = '~' || c = '*' || c = '\'' || c = '(' || c = ')'

/-- Modelled from the spec: the percent-escaping a URL-aware clipboard
applies (the JavaScript encodeURIComponent): unreserved characters pass
through, every other character becomes percent-escaped UTF-8 bytes. -/
def percentEncode (s : String) : String :=
  ofChars (s.data.flatMap (fun c =>
    if isUnreservedURI c then [c] else (utf8EncodeChar c.toNat).flatMap pctHexPair))

def pctByteAt : List Char → Option (Nat × List Char)
  | '%' :: h1 :: h2 :: rest =>
    match hexDigitVal h1, hexDigitVal h2 with
    | some a, some b => some (a * 16 + b, rest)
    | _, _ => none
  | _ => none

/-- One step of the model of the JavaScript decodeURIComponent: an
unescaped character passes through, an escape reads one byte (under 0x80)
or a two-byte UTF-8 sequence whose continuation byte must also be escaped;
malformed input is none (a URIError in JavaScript, which the caller
catches). -/
def pctStep : List Char → Option (Char × List Char)
  | [] => none
  | c :: rest =>
    if c = '%' then
      match pctByteAt (c :: rest) with
      | some (n, rest2) =>
        if n < 0x80 then some (Char.ofNat n, rest2)
        else if 0xc2 ≤ n ∧ n ≤ 0xdf then
          match pctByteAt rest2 with
          | some (b2, rest3) =>
            if 0x80 ≤ b2 ∧ b2 ≤ 0xbf then
              some (Char.ofNat ((n - 0xc0) * 64 + (b2 - 0x80)), rest3)
            else none
          | none => none
        else none
      | none => none
    else some (c, rest)

def pctDecodeAux : Nat → List Char → Option (List Char)
  | _, [] => some []
  | 0, _ :: _ => none
  | f + 1, c :: rest =>
    match pctStep (c :: rest) with
    | some (ch, rest2) => (pctDecodeAux f rest2).map (ch :: ·)
    | none => none

/-- Modelled from the spec: the JavaScript decodeURIComponent, as the
fuel-driven iteration of pctStep (each step consumes at least one
character, so the input length is always enough fuel). -/
def pctDecodeL (l : List Char) : Option (List Char) := pctDecodeAux l.length l

/-! ## The Session-Description Reducer (src/utils/network.ts lines 62-185)

The body of formatSDPForQR. The IPv4 regex (backslash-d 1-to-3 then three
dot-digit groups) is deterministic at every start position because each
non-final group can only match a whole maximal digit run of length at most
3 followed by a dot (taking fewer digits leaves a digit, not a dot, next),
so the leftmost-greedy JavaScript match is reproduced by a left-to-right
scan with whole-run groups and a final group of up to three digits. -/

/-- One group of the IPv4 pattern followed by a literal dot. -/
def grpDot (l : List Char) : Option (List Char × List Char) :=
  let r := takeDigitsRun l
  if r.1.length = 0 ∨ r.1.length > 3 then none
  else
    match r.2 with
    | '.' :: r2 => some (r.1 ++ ['.'], r2)
    | _ => none

/-- Final group of the IPv4 pattern: one to three digits, greedy. -/
def grpEnd (l : List Char) : Option (List Char) :=
  let r := takeDigitsRun l
  if r.1.length = 0 then none else some (r.1.take 3)

def matchIpAt (l : List Char) : Option (List Char) :=
  match grpDot l with
  | none => none
  | some (g1, r1) =>
    match grpDot r1 with
    | none => none
    | some (g2, r2) =>
      match grpDot r2 with
      | none => none
      | some (g3, r3) =>
        match grpEnd r3 with
        | none => none
        | some g4 => some (g1 ++ g2 ++ g3 ++ g4)

def ipMatchL : List Char → Option String
  | [] => none
  | c :: tl =>
    match matchIpAt (c :: tl) with
    | some m => some (ofChars m)
    | none => ipMatchL tl

/-- First match of the IPv4-looking regex in a line (line.match in the
candidate branch, and the regex in isPrivateIp's caller). -/
def ipMatch (s : String) : Option String := ipMatchL s.data

/-- Model of the JavaScript Number conversion restricted to the strings the
reducer feeds it: a digit string converts to its value, the empty string to
zero, anything else to NaN (none). -/
def jsNumber (s : String) : Option Nat :=
  if s.data.all Char.isDigit then some (digitsValL s.data) else none

/-- isPrivateIp from src/utils/network.ts lines 82-88. -/
def isPrivateIp (ip : String) : Bool :=
  if jsStartsWith ip "10." then true
  else if jsStartsWith ip "192.168." then true
  else
    match (splitOnChar '.' ip).map jsNumber with
    | [p0, p1, _, _] =>
      p0 = some 172 &&
        (match p1 with
         | some b => 16 ≤ b && b ≤ 31
         | none => false)
    | _ => false

/-- The session-level prefixes always kept (v=, o=, s=, t=, c=). -/
def isSessionLine (line : String) : Bool :=
  jsStartsWith line "v=" || jsStartsWith line "o=" || jsStartsWith line "s=" ||
  jsStartsWith line "t=" || jsStartsWith line "c="

/-- The critical per-section attributes always kept. -/
def isCriticalAttr (line : String) : Bool :=
  jsStartsWith line "a=ice-ufrag:" || jsStartsWith line "a=ice-pwd:" ||
  jsStartsWith line "a=fingerprint:" || jsStartsWith line "a=setup:" ||
  jsStartsWith line "a=rtcp-mux" || jsStartsWith line "a=rtcp:" ||
  jsStartsWith line "a=mid:" || jsStartsWith line "a=sendrecv" ||
  jsStartsWith line "a=recvonly" || jsStartsWith line "a=sendonly" ||
  jsStartsWith line "a=inactive"

def isCodecAttr (line : String) : Bool :=
  jsStartsWith line "a=rtpmap:" || jsStartsWith line "a=fmtp:"

/-- The candidate-filter condition of the reducer (isHost, isUdp and
isPrivateHost of lines 145-148; a line without an IPv4-looking token counts
as private, the mDNS allowance). -/
def goodCandidate (line : String) : Bool :=
  jsIncludes line " typ host" && jsIncludes line " udp " &&
    (match ipMatch line with
     | some ip => isPrivateIp ip
     | none => true)

/-- Loop state of the reducer: mediaIndex starts at -1; the two kept-maps
are sets of media indices (they are only ever written together in the
source, lines 151-152, but are kept as two fields to mirror it). -/
structure ReduceState where
  mediaIndex : Int
  mediaCodecs : List (Int × List String)
  keptCandidateForMedia : List Int
  keptAnyCandidateForMedia : List Int
  compressedLines : List String
deriving Repr, DecidableEq

def initReduceState : ReduceState := ⟨-1, [], [], [], []⟩

/-- One iteration of the for-loop over lines (lines 90-166). -/
def reduceStep (st : ReduceState) (line : String) : ReduceState :=
  if jsTrim line = "" then st
  else if jsStartsWith line "m=" then
    let mi := st.mediaIndex + 1
    let parts := splitOnChar ' ' line
    let codecs := if parts.length > 3 then (mi, parts.drop 3) :: st.mediaCodecs else st.mediaCodecs
    { st with
        mediaIndex := mi
        mediaCodecs := codecs
        compressedLines := st.compressedLines ++ [line] }
  else if isSessionLine line then
    { st with compressedLines := st.compressedLines ++ [line] }
  else if isCriticalAttr line then
    { st with compressedLines := st.compressedLines ++ [line] }
  else if isCodecAttr line then
    { st with compressedLines := st.compressedLines ++ [line] }
  else if jsStartsWith line "a=candidate:" then
    if st.mediaIndex ≥ 0 && !(st.keptCandidateForMedia.contains st.mediaIndex) then
      if goodCandidate line then
        { st with
            compressedLines := st.compressedLines ++ [line]
            keptCandidateForMedia := st.mediaIndex :: st.keptCandidateForMedia
            keptAnyCandidateForMedia := st.mediaIndex :: st.keptAnyCandidateForMedia }
      else st
    else st
  else if jsStartsWith line "a=end-of-candidates" then
    if st.mediaIndex ≥ 0 && st.keptAnyCandidateForMedia.contains st.mediaIndex then
      { st with compressedLines := st.compressedLines ++ [line] }
    else st
  else st

def reduceLines (lines : List String) : List String :=
  (lines.foldl reduceStep initReduceState).compressedLines

/-- The full reduction: split on line breaks, filter, re-join (lines 75,
90-166, 168). This is the reduce of section 4.1 of the spec. -/
def reduceSDP (text : String) : String := joinNl (reduceLines (splitLines text))

/-! ## The Envelope Codec: encode (formatSDPForQR, lines 62-185) -/

/-- The body of formatSDPForQR up to the return; none models any thrown
exception reaching the catch at line 181 (reading .sdp of undefined or of a
non-object, calling .split on a non-string, JSON.parse failing). -/
def formatBody (data : Json) : Option String :=
  match
    (match getFieldJ data "sdp" with
     | some (.str s) =>
       if jsStartsWith (jsTrim s) "\x7b" then jsonParse s
       else some (Json.obj [("sdp", Json.str s)])
     | some v => some v
     | none => none)
  with
  | none => none
  | some sdpObj =>
    match getFieldJ sdpObj "sdp" with
    | some (.str text) =>
      let compressedSDP := reduceSDP text
      let payload := Json.obj
        ((match getFieldJ data "type" with
          | some t => [("type", t)]
          | none => []) ++ [("sdp", Json.str compressedSDP)])
      some (compressToBase64 (Json.stringify payload))
    | _ => none

/-- formatSDPForQR: on any internal failure, fall back to the plain JSON
serialization of the input (line 183). -/
def formatSDPForQR (data : Json) : String :=
  match formatBody data with
  | some s => s
  | none => Json.stringify data

/-! ## The Envelope Codec: decode (parseSDPFromQR, lines 187-264) -/

/-- The literal four-character sequence backslash-r-backslash-n. -/
def escRN : List Char := ['\\', 'r', '\\', 'n']

/-- The two chained global replaces of lines 197 and 210. -/
def unescapeSdp (s : String) : String :=
  ofChars (replaceAllL '\\' ['n'] ['\n']
    (replaceAllL '\\' ['r', '\\', 'n'] ['\r', '\n'] s.data))

/-- The sdp post-processing of the decompression branch (lines 194-199):
only when the parsed value is truthy and carries a string sdp containing
the literal backslash-r-backslash-n are the escapes replaced. -/
def lzPostProcess (p : Json) : Json :=
  if p.truthy then
    match getFieldJ p "sdp" with
    | some (.str s) =>
      if hasSubstrL escRN s.data then setFieldJ p "sdp" (Json.str (unescapeSdp s))
      else p
    | _ => p
  else p

/-- The direct-JSON branch of tryParse (lines 206-219): parse, conditionally
unescape, then re-parse a brace-led sdp one level; a failure of the nested
parse is an exception, so the whole attempt returns null. -/
def directParse (text : String) : Option Json :=
  match jsonParse text with
  | none => none
  | some p =>
    if p.truthy then
      match getFieldJ p "sdp" with
      | some (.str s) =>
        let p1 := if hasSubstrL escRN s.data then setFieldJ p "sdp" (Json.str (unescapeSdp s)) else p
        let s1 := if hasSubstrL escRN s.data then unescapeSdp s else s
        if jsStartsWith (jsTrim s1) "\x7b" then
          match jsonParse s1 with
          | some v => some (setFieldJ p1 "sdp" v)
          | none => none
        else some p1
      | _ => some p
    else some p

/-- tryParse (lines 188-220): the decompression branch returns whatever the
JSON parse of a nonempty decompression yields (even a falsy value); only
when decompression yields nothing usable or its JSON parse throws does the
direct branch run. -/
def tryParse (text : String) : Option Json :=
  match decompressFromBase64 text with
  | some d =>
    if d ≠ "" then
      match jsonParse d with
      | some parsed => some (lzPostProcess parsed)
      | none => directParse text
    else directParse text
  | none => directParse text

/-- The regex of line 236: one digit run, then one or more groups of
whitespace and a digit run, to the end. -/
def matchGroupsAux : Nat → List Char → Bool
  | 0, _ => false
  | f + 1, l =>
    if (l.takeWhile isJsWs).isEmpty then false
    else
      let d := takeDigitsRun (l.dropWhile isJsWs)
      if d.1.isEmpty then false
      else d.2.isEmpty || matchGroupsAux f d.2

def matchNumSeqL (l : List Char) : Bool :=
  let r := takeDigitsRun l
  !r.1.isEmpty && matchGroupsAux (r.2.length + 1) r.2

/-- The regex of line 241: some percent escape with two hex digits. -/
def hasPctEscape : List Char → Bool
  | [] => false
  | c :: cs =>
    (c = '%' &&
      match cs with
      | h1 :: h2 :: _ => isHexDigit h1 && isHexDigit h2
      | _ => false) || hasPctEscape cs

/-- The regex of line 249: nonempty and all characters in the base64 set. -/
def isB64Charset (l : List Char) : Bool := !l.isEmpty && l.all isB64SetChar

/-- Worker for splitWsRuns: input begins with a non-whitespace character
(or is empty, which yields one empty piece). -/
def splitWsGo : Nat → List Char → List String
  | 0, _ => []
  | _ + 1, [] => [""]
  | f + 1, c :: cs =>
    let w := (c :: cs).span (fun x => !isJsWs x)
    match w.2 with
    | [] => [ofChars w.1]
    | _ :: _ => ofChars w.1 :: splitWsGo f (w.2.dropWhile isJsWs)

/-- The JavaScript split on the regex backslash-s-plus, which yields an
empty first piece when the string starts with whitespace and an empty last
piece when it ends with whitespace. -/
def splitWsRuns (l : List Char) : List String :=
  match l with
  | [] => [""]
  | c :: _ =>
    if isJsWs c then "" :: splitWsGo l.length (l.dropWhile isJsWs)
    else splitWsGo (l.length + 1) l

/-- decodeNumericBytes (lines 222-231): split on whitespace runs, convert
with Number, drop NaN, reject empty lists and out-of-range values, decode
the byte values as UTF-8 text. -/
def decodeNumericBytes (input : String) : Option String :=
  let values := ((splitWsRuns input.data).map jsNumber).filterMap id
  if values.isEmpty || values.any (fun v => v > 255) then none
  else some (ofChars (utf8DecodeReplace values))

/-- The ordered candidate list of parseSDPFromQR (lines 233-255). -/
def qrCandidates (dataString : String) : List String :=
  let trimmed := jsTrim dataString
  [trimmed]
    ++ (if matchNumSeqL trimmed.data then
          match decodeNumericBytes trimmed with
          | some d => [d]
          | none => []
        else [])
    ++ (if hasPctEscape trimmed.data then
          match pctDecodeL trimmed.data with
          | some d => [ofChars d]
          | none => []
        else [])
    ++ (if isB64Charset trimmed.data && trimmed.data.length % 4 = 0 then
          match atobModel trimmed with
          | some d => [d]
          | none => []
        else [])

/-- The final loop of parseSDPFromQR (lines 257-260): return the first
truthy parse. -/
def firstTruthy : List String → Option Json
  | [] => none
  | c :: cs =>
    match tryParse c with
    | some v => if v.truthy then some v else firstTruthy cs
    | none => firstTruthy cs

/-- parseSDPFromQR (lines 187-264). -/
def parseSDPFromQR (dataString : String) : Option Json :=
  firstTruthy (qrCandidates dataString)

def joinSp : List String → String
  | [] => ""
  | [s] => s
  | s :: t :: tl => s ++ " " ++ joinSp (t :: tl)

/-- The rendering worker of the byte-sequence transport: decimal digits of
each byte, single spaces between bytes. -/
def byteSeqL : List Nat → List Char
  | [] => []
  | [b] => natDigits b
  | b :: b2 :: bs => natDigits b ++ ' ' :: byteSeqL (b2 :: bs)

/-- Modelled from the spec: the whitespace-separated decimal byte sequence
of a token (item b of the candidate list in section 4.2, the digit-only
camera transcription transport). -/
def byteSequenceOf (s : String) : String := ofChars (byteSeqL (utf8Bytes s))

/-! ## Support lemmas: characters, digits, whitespace -/

theorem data_ofChars (l : List Char) : (ofChars l).data = l := rfl

theorem jsonWs_of_digit (c : Char) (h : c.isDigit = true) :
    (c = ' ' || c = '\t' || c = '\n' || c = '\r') = false := by
  simp only [Char.isDigit] at h
  simp only [Bool.and_eq_true, decide_eq_true_eq] at h
  simp only [Bool.or_eq_false_iff, decide_eq_false_iff_not]
  refine ⟨⟨⟨?_, ?_⟩, ?_⟩, ?_⟩ <;> rintro rfl <;> revert h <;> decide

theorem skipWsJ_cons (c : Char) (l : List Char) :
    skipWsJ (c :: l) =
      if (c = ' ' || c = '\t' || c = '\n' || c = '\r') then skipWsJ l else c :: l := by
  simp [skipWsJ, List.dropWhile_cons]

theorem skipWsJ_not_ws (c : Char) (l : List Char)
    (h : (c = ' ' || c = '\t' || c = '\n' || c = '\r') = false) :
    skipWsJ (c :: l) = c :: l := by
  rw [skipWsJ_cons, h]; rfl

theorem digitChar10_isDigit (n : Nat) (h : n < 10) : (digitChar10 n).isDigit = true := by
  interval_cases n <;> decide

theorem digitChar10_val (n : Nat) (h : n < 10) : digitVal (digitChar10 n) = n := by
  interval_cases n <;> decide

theorem natDigitsAux_all_digit :
    ∀ f n, n < f → (natDigitsAux f n).all Char.isDigit = true := by
  intro f
  induction f with
  | zero => intro n h; omega
  | succ f ih =>
    intro n h
    rw [natDigitsAux]
    by_cases h10 : n < 10
    · simp [h10, List.all_cons, digitChar10_isDigit n h10]
    · rw [if_neg h10, List.all_append]
      simp only [Bool.and_eq_true]
      refine ⟨ih (n / 10) (by omega), ?_⟩
      simp [digitChar10_isDigit (n % 10) (Nat.mod_lt _ (by omega))]

theorem natDigits_all_digit (n : Nat) : (natDigits n).all Char.isDigit = true :=
  natDigitsAux_all_digit (n + 1) n (by omega)

theorem digitsValL_append (l : List Char) (c : Char) :
    digitsValL (l ++ [c]) = 10 * digitsValL l + digitVal c := by
  simp [digitsValL, List.foldl_append]

theorem natDigitsAux_val :
    ∀ f n, n < f → digitsValL (natDigitsAux f n) = n := by
  intro f
  induction f with
  | zero => intro n h; omega
  | succ f ih =>
    intro n h
    rw [natDigitsAux]
    by_cases h10 : n < 10
    · rw [if_pos h10]
      have : digitsValL [digitChar10 n] = digitVal (digitChar10 n) := by
        simp [digitsValL]
      rw [this, digitChar10_val n h10]
    · rw [if_neg h10]
      rw [digitsValL_append, ih (n / 10) (by omega),
        digitChar10_val (n % 10) (Nat.mod_lt _ (by omega))]
      omega

theorem natDigits_val (n : Nat) : digitsValL (natDigits n) = n :=
  natDigitsAux_val (n + 1) n (by omega)

theorem natDigitsAux_ne_nil (f n : Nat) (h : n < f) : natDigitsAux f n ≠ [] := by
  cases f with
  | zero => omega
  | succ f =>
    rw [natDigitsAux]
    by_cases h10 : n < 10 <;> simp [h10]

theorem natDigits_ne_nil (n : Nat) : natDigits n ≠ [] :=
  natDigitsAux_ne_nil (n + 1) n (by omega)

theorem takeDigitsRun_all_digits (run rest : List Char)
    (hrun : run.all Char.isDigit = true)
    (hrest : rest = [] ∨ ∃ c tl, rest = c :: tl ∧ c.isDigit = false) :
    takeDigitsRun (run ++ rest) = (run, rest) := by
  induction run with
  | nil =>
    rcases hrest with rfl | ⟨c, tl, rfl, hc⟩
    · rfl
    · simp [takeDigitsRun, hc]
  | cons c cs ih =>
    simp only [List.all_cons, Bool.and_eq_true] at hrun
    simp [takeDigitsRun, hrun.1, ih hrun.2]

theorem digit_head_cases (c : Char) (h : c.isDigit = true) :
    (c = 'n') = False ∧ (c = 't') = False ∧ (c = 'f') = False ∧
    (c = '"') = False ∧ (c = '[') = False ∧ (c = '{') = False := by
  simp only [Char.isDigit, Bool.and_eq_true, decide_eq_true_eq] at h
  refine ⟨?_, ?_, ?_, ?_, ?_, ?_⟩ <;> simp only [eq_iff_iff, iff_false] <;>
    rintro rfl <;> revert h <;> decide

theorem hexDigitVal_hexCharLower (n : Nat) (h : n < 16) :
    hexDigitVal (hexCharLower n) = some n := by
  interval_cases n <;> decide

theorem pStrBody_escStrJ : ∀ (cs rest : List Char),
    pStrBody (escStrJ cs ++ '"' :: rest) = some (cs, rest) := by
  intro cs
  induction cs with
  | nil =>
    intro rest
    simp only [escStrJ, List.nil_append]
    rw [pStrBody.eq_def]; simp
  | cons c cs ih =>
    intro rest
    rw [escStrJ]
    by_cases h1 : c = '"'
    · subst h1; simp only [escCharJ, reduceIte, List.cons_append]
      rw [pStrBody.eq_def]; simp [consFst, ih]
    by_cases h2 : c = '\\'
    · subst h2; simp only [escCharJ, reduceIte, List.cons_append]
      rw [pStrBody.eq_def]; simp [consFst, ih]
    by_cases h3 : c = '\n'
    · subst h3; simp only [escCharJ, reduceIte, List.cons_append]
      rw [pStrBody.eq_def]; simp [consFst, ih]
    by_cases h4 : c = '\r'
    · subst h4; simp only [escCharJ, reduceIte, List.cons_append]
      rw [pStrBody.eq_def]; simp [consFst, ih]
    by_cases h5 : c = '\t'
    · subst h5; simp only [escCharJ, reduceIte, List.cons_append]
      rw [pStrBody.eq_def]; simp [consFst, ih]
    by_cases h6 : c = '\x08'
    · subst h6; simp only [escCharJ, reduceIte, List.cons_append]
      rw [pStrBody.eq_def]; simp [consFst, ih]
    by_cases h7 : c = '\x0c'
    · subst h7; simp only [escCharJ, reduceIte, List.cons_append]
      rw [pStrBody.eq_def]; simp [consFst, ih]
    by_cases h8 : c.toNat < 32
    · rw [escCharJ]
      simp only [h1, h2, h3, h4, h5, h6, h7, if_false, h8, if_true]
      have e1 : hexDigitVal (hexCharLower (c.toNat / 16)) = some (c.toNat / 16) :=
        hexDigitVal_hexCharLower _ (by omega)
      have e2 : hexDigitVal (hexCharLower (c.toNat % 16)) = some (c.toNat % 16) :=
        hexDigitVal_hexCharLower _ (Nat.mod_lt _ (by omega))
      have e0 : hexDigitVal '0' = some 0 := by decide
      simp only [List.cons_append, List.nil_append]
      rw [pStrBody.eq_def]
      simp [e0, e1, e2, consFst]
      refine ⟨by omega, ih rest, ?_⟩
      have hx : c.toNat / 16 * 16 + c.toNat % 16 = c.toNat := by omega
      rw [hx, Char.ofNat_toNat]
    · rw [escCharJ]
      simp only [h1, h2, h3, h4, h5, h6, h7, h8, if_false]
      simp only [List.singleton_append]
      rw [pStrBody.eq_def]
      simp [h1, h2, h8, ih, consFst]

/-! ## Printer-parser round trip for the JSON model -/

mutual
def nfJson : Json → Nat
  | .arr xs => 1 + nfItemsN xs
  | .obj fs => 1 + nfFieldsN fs
  | _ => 1
def nfItemsN : List Json → Nat
  | [] => 1
  | x :: tl => 1 + nfJson x + nfItemsN tl
def nfFieldsN : List (String × Json) → Nat
  | [] => 1
  | kv :: tl => 2 + nfJson kv.2 + nfFieldsN tl
end

def svMoreItems : List Json → List Char
  | [] => []
  | x :: tl => ',' :: (svJson x ++ svMoreItems tl)

def svMoreFields : List (String × Json) → List Char
  | [] => []
  | (k, v) :: tl => ',' :: (svStr k ++ ':' :: svJson v ++ svMoreFields tl)

theorem svItems_cons (x : Json) (tl : List Json) :
    svItems (x :: tl) = svJson x ++ svMoreItems tl := by
  induction tl generalizing x with
  | nil => simp [svItems, svMoreItems]
  | cons y tl ih => simp [svItems, svMoreItems, ih y]

theorem svFields_cons (k : String) (v : Json) (tl : List (String × Json)) :
    svFields ((k, v) :: tl) = svStr k ++ ':' :: svJson v ++ svMoreFields tl := by
  induction tl generalizing k v with
  | nil => simp [svFields, svMoreFields]
  | cons kv tl ih =>
    obtain ⟨k2, v2⟩ := kv
    simp [svFields, svMoreFields, ih k2 v2]

/-- The rest of the input after a serialized number must not begin with a
digit, so that the maximal-munch number parser stops exactly there. -/
def dOk (rest : List Char) : Prop :=
  rest = [] ∨ ∃ c tl, rest = c :: tl ∧ c.isDigit = false

theorem digit_toNat_bounds (c : Char) (h : c.isDigit = true) :
    48 ≤ c.toNat ∧ c.toNat ≤ 57 := by
  simp only [Char.isDigit, Bool.and_eq_true, decide_eq_true_eq] at h
  exact ⟨h.1, h.2⟩

theorem digit_ne (c x : Char) (h : c.isDigit = true)
    (hx : x.toNat < 48 ∨ 57 < x.toNat) : c ≠ x := by
  intro he
  subst he
  have := digit_toNat_bounds c h
  omega

/-- The first character of a serialized JSON value classifies it. -/
def headCat (c : Char) : Prop :=
  c = 'n' ∨ c = 't' ∨ c = 'f' ∨ c = '"' ∨ c = '[' ∨ c = '{' ∨ c.isDigit = true

theorem svJson_head (v : Json) :
    ∃ c cs, svJson v = c :: cs ∧ headCat c := by
  cases v with
  | null => exact ⟨'n', _, rfl, Or.inl rfl⟩
  | bool b =>
    cases b with
    | false => exact ⟨'f', _, rfl, by simp [headCat]⟩
    | true => exact ⟨'t', _, rfl, by simp [headCat]⟩
  | num n =>
    obtain ⟨c, cs, hc⟩ : ∃ c cs, natDigits n = c :: cs := by
      cases h : natDigits n with
      | nil => exact absurd h (natDigits_ne_nil n)
      | cons c cs => exact ⟨c, cs, rfl⟩
    refine ⟨c, cs, by simpa [svJson] using hc, ?_⟩
    have hall := natDigits_all_digit n
    rw [hc] at hall
    simp only [List.all_cons, Bool.and_eq_true] at hall
    exact Or.inr (Or.inr (Or.inr (Or.inr (Or.inr (Or.inr hall.1)))))
  | str s => exact ⟨'"', _, rfl, by simp [headCat]⟩
  | arr xs => exact ⟨'[', _, rfl, by simp [headCat]⟩
  | obj fs => exact ⟨'{', _, rfl, by simp [headCat]⟩

theorem headCat_not_ws (c : Char) (h : headCat c) :
    (c = ' ' || c = '\t' || c = '\n' || c = '\r') = false := by
  rcases h with rfl | rfl | rfl | rfl | rfl | rfl | hd
  · decide
  · decide
  · decide
  · decide
  · decide
  · decide
  · exact jsonWs_of_digit c hd

theorem headCat_ne (c x : Char) (h : headCat c)
    (hx : x ∉ ['n', 't', 'f', '"', '[', '{'])
    (hd : x.toNat < 48 ∨ 57 < x.toNat) : c ≠ x := by
  rcases h with rfl | rfl | rfl | rfl | rfl | rfl | hdg
  · simp at hx; tauto
  · simp at hx; tauto
  · simp at hx; tauto
  · simp at hx; tauto
  · simp at hx; tauto
  · simp at hx; tauto
  · exact digit_ne c x hdg hd

theorem nfJson_pos (v : Json) : 1 ≤ nfJson v := by
  cases v <;> simp [nfJson]

theorem nfItemsN_pos (xs : List Json) : 1 ≤ nfItemsN xs := by
  cases xs <;> simp [nfItemsN] <;> omega

theorem nfFieldsN_pos (fs : List (String × Json)) : 1 ≤ nfFieldsN fs := by
  cases fs <;> simp [nfFieldsN] <;> omega

theorem ofChars_data (s : String) : ofChars s.data = s := rfl

theorem headCat_head_pVal (g : Nat) (c : Char) (cs : List Char) (h : headCat c) :
    skipWsJ (c :: cs) = c :: cs :=
  skipWsJ_not_ws c cs (headCat_not_ws c h)

theorem jsonRT :
    ∀ f : Nat,
      (∀ v rest, nfJson v ≤ f → dOk rest →
        pVal f (svJson v ++ rest) = some (v, rest)) ∧
      (∀ xs rest, nfItemsN xs ≤ f →
        pItems f (svItems xs ++ ']' :: rest) = some (xs, rest)) ∧
      (∀ xs rest, nfItemsN xs ≤ f →
        pMoreItems f (svMoreItems xs ++ ']' :: rest) = some (xs, rest)) ∧
      (∀ k v rest, nfJson v + 1 ≤ f → dOk rest →
        pField f (svStr k ++ ':' :: (svJson v ++ rest)) = some ((k, v), rest)) ∧
      (∀ fs rest, nfFieldsN fs ≤ f →
        pMoreFields f (svMoreFields fs ++ '}' :: rest) = some (fs, rest)) ∧
      (∀ fs rest, nfFieldsN fs ≤ f →
        pFieldList f (svFields fs ++ '}' :: rest) = some (fs, rest)) := by
  intro f
  induction f using Nat.strong_induction_on with
  | _ f ih =>
    cases f with
    | zero =>
      refine ⟨?_, ?_, ?_, ?_, ?_, ?_⟩
      · intro v rest h _; have := nfJson_pos v; omega
      · intro xs rest h; have := nfItemsN_pos xs; omega
      · intro xs rest h; have := nfItemsN_pos xs; omega
      · intro k v rest h _; have := nfJson_pos v; omega
      · intro fs rest h; have := nfFieldsN_pos fs; omega
      · intro fs rest h; have := nfFieldsN_pos fs; omega
    | succ g =>
      obtain ⟨A, B, C, D, E, F⟩ := ih g (by omega)
      have hA : ∀ v rest, nfJson v ≤ g + 1 → dOk rest →
          pVal (g + 1) (svJson v ++ rest) = some (v, rest) := by
        intro v rest hnf hd
        cases v with
        | null =>
          simp only [svJson, List.cons_append, List.nil_append]
          simp only [pVal]
          rw [skipWsJ_not_ws _ _ (by decide)]
          simp
        | bool b =>
          cases b with
          | true =>
            simp only [svJson, List.cons_append, List.nil_append]
            simp only [pVal]
            rw [skipWsJ_not_ws _ _ (by decide)]
            simp
          | false =>
            simp only [svJson, List.cons_append, List.nil_append]
            simp only [pVal]
            rw [skipWsJ_not_ws _ _ (by decide)]
            simp
        | str s =>
          simp only [svJson, svStr, List.cons_append, List.append_assoc,
            List.singleton_append]
          simp only [pVal]
          rw [skipWsJ_not_ws _ _ (by decide)]
          simp [pStrBody_escStrJ, ofChars_data]
        | num n =>
          obtain ⟨c, cs, hc⟩ : ∃ c cs, natDigits n = c :: cs := by
            cases h : natDigits n with
            | nil => exact absurd h (natDigits_ne_nil n)
            | cons c cs => exact ⟨c, cs, rfl⟩
          have hall := natDigits_all_digit n
          have hcdig : c.isDigit = true := by
            rw [hc] at hall
            simp only [List.all_cons, Bool.and_eq_true] at hall
            exact hall.1
          have hrun : takeDigitsRun (natDigits n ++ rest) = (natDigits n, rest) :=
            takeDigitsRun_all_digits _ _ (natDigits_all_digit n) hd
          simp only [svJson]
          rw [hc] at hrun ⊢
          simp only [List.cons_append]
          simp only [pVal]
          rw [skipWsJ_not_ws _ _ (jsonWs_of_digit c hcdig)]
          obtain ⟨e1, e2, e3, e4, e5, e6⟩ := digit_head_cases c hcdig
          simp only [e1, e2, e3, e4, e5, e6, if_false, hcdig, if_true]
          simp only [List.cons_append] at hrun
          rw [hrun]
          rw [← hc, natDigits_val]
        | arr xs =>
          simp only [svJson, List.cons_append, List.append_assoc,
            List.singleton_append]
          simp only [pVal]
          rw [skipWsJ_not_ws _ _ (by decide)]
          have hfuel : nfItemsN xs ≤ g := by
            simp only [nfJson] at hnf; omega
          simp [B xs rest hfuel]
        | obj fs =>
          simp only [svJson, List.cons_append, List.append_assoc,
            List.singleton_append]
          simp only [pVal]
          rw [skipWsJ_not_ws _ _ (by decide)]
          have hfuel : nfFieldsN fs ≤ g := by
            simp only [nfJson] at hnf; omega
          simp [F fs rest hfuel]
      refine ⟨hA, ?_, ?_, ?_, ?_, ?_⟩
      · -- pItems
        intro xs rest hnf
        cases xs with
        | nil =>
          simp only [svItems, List.nil_append]
          simp only [pItems]
          rw [skipWsJ_not_ws _ _ (by decide)]
          simp [hasPrefixL]
        | cons x tl =>
          rw [svItems_cons]
          obtain ⟨c, cs, hc, hcat⟩ := svJson_head x
          have hdok : dOk (svMoreItems tl ++ ']' :: rest) := by
            cases tl with
            | nil => exact Or.inr ⟨']', rest, rfl, by decide⟩
            | cons y tl2 =>
              exact Or.inr ⟨',', _, rfl, by decide⟩
          have hx : pVal g (svJson x ++ (svMoreItems tl ++ ']' :: rest)) =
              some (x, svMoreItems tl ++ ']' :: rest) := by
            refine A x _ ?_ hdok
            simp only [nfItemsN] at hnf; omega
          have hmore : pMoreItems g (svMoreItems tl ++ ']' :: rest) =
              some (tl, rest) := by
            refine C tl rest ?_
            simp only [nfItemsN] at hnf; omega
          simp only [pItems]
          rw [List.append_assoc]
          rw [hc]
          simp only [List.cons_append]
          rw [skipWsJ_not_ws _ _ (headCat_not_ws c hcat)]
          have hne : (hasPrefixL [']'] (c :: (cs ++ (svMoreItems tl ++ ']' :: rest)))) = false := by
            have hcne : c ≠ ']' := headCat_ne c ']' hcat (by decide) (by decide)
            have hcne2 : (']' = c) = False := by
              simp only [eq_iff_iff, iff_false]
              exact fun h => hcne h.symm
            simp [hasPrefixL, hcne2]
          rw [hne]
          simp only [Bool.false_eq_true, if_false]
          rw [hc] at hx
          simp only [List.cons_append, List.append_assoc] at hx
          rw [hx]
          simp [hmore]
      · -- pMoreItems
        intro xs rest hnf
        cases xs with
        | nil =>
          simp only [svMoreItems, List.nil_append]
          simp only [pMoreItems]
          rw [skipWsJ_not_ws _ _ (by decide)]
          simp [hasPrefixL]
        | cons x tl =>
          simp only [svMoreItems, List.cons_append]
          have hdok : dOk (svMoreItems tl ++ ']' :: rest) := by
            cases tl with
            | nil => exact Or.inr ⟨']', rest, rfl, by decide⟩
            | cons y tl2 => exact Or.inr ⟨',', _, rfl, by decide⟩
          have hx : pVal g (svJson x ++ (svMoreItems tl ++ ']' :: rest)) =
              some (x, svMoreItems tl ++ ']' :: rest) := by
            refine A x _ ?_ hdok
            simp only [nfItemsN] at hnf; omega
          have hmore : pMoreItems g (svMoreItems tl ++ ']' :: rest) =
              some (tl, rest) := by
            refine C tl rest ?_
            simp only [nfItemsN] at hnf; omega
          simp only [pMoreItems]
          rw [skipWsJ_not_ws _ _ (by decide)]
          simp only [hasPrefixL, List.append_assoc]
          norm_num
          simp only [List.append_assoc] at hx
          rw [hx]
          simp [hmore]
      · -- pField
        intro k v rest hnf hd
        have hv : pVal g (svJson v ++ rest) = some (v, rest) :=
          A v rest (by omega) hd
        have hstr : pStrBody (escStrJ k.data ++ '"' :: (':' :: (svJson v ++ rest))) =
            some (k.data, ':' :: (svJson v ++ rest)) := pStrBody_escStrJ _ _
        have hsk : skipWsJ (':' :: (svJson v ++ rest)) = ':' :: (svJson v ++ rest) :=
          skipWsJ_not_ws _ _ (by decide)
        simp only [svStr, List.cons_append, List.append_assoc, List.singleton_append]
        simp only [pField]
        rw [skipWsJ_not_ws _ _ (by decide)]
        simp only [List.append_assoc, List.cons_append] at hstr
        simp [hstr, hsk, hv, ofChars_data, hasPrefixL]
      · -- pMoreFields
        intro fs rest hnf
        cases fs with
        | nil =>
          simp only [svMoreFields, List.nil_append]
          simp only [pMoreFields]
          rw [skipWsJ_not_ws _ _ (by decide)]
          simp [hasPrefixL]
        | cons kv tl =>
          obtain ⟨k, v⟩ := kv
          simp only [svMoreFields, List.cons_append]
          have hdok : dOk (svMoreFields tl ++ '}' :: rest) := by
            cases tl with
            | nil => exact Or.inr ⟨'}', rest, rfl, by decide⟩
            | cons kv2 tl2 =>
              obtain ⟨k2, v2⟩ := kv2
              exact Or.inr ⟨',', _, rfl, by decide⟩
          have hf : pField g (svStr k ++ ':' :: (svJson v ++ (svMoreFields tl ++ '}' :: rest))) =
              some ((k, v), svMoreFields tl ++ '}' :: rest) := by
            refine D k v _ ?_ hdok
            simp only [nfFieldsN] at hnf; omega
          have hmore : pMoreFields g (svMoreFields tl ++ '}' :: rest) =
              some (tl, rest) := by
            refine E tl rest ?_
            simp only [nfFieldsN] at hnf; omega
          simp only [pMoreFields]
          rw [skipWsJ_not_ws _ _ (by decide)]
          simp only [hasPrefixL, List.append_assoc]
          norm_num
          simp only [List.append_assoc, List.cons_append] at hf
          rw [hf]
          simp [hmore]
      · -- pFieldList
        intro fs rest hnf
        cases fs with
        | nil =>
          simp only [svFields, List.nil_append]
          simp only [pFieldList]
          rw [skipWsJ_not_ws _ _ (by decide)]
          simp [hasPrefixL]
        | cons kv tl =>
          obtain ⟨k, v⟩ := kv
          rw [svFields_cons]
          have hdok : dOk (svMoreFields tl ++ '}' :: rest) := by
            cases tl with
            | nil => exact Or.inr ⟨'}', rest, rfl, by decide⟩
            | cons kv2 tl2 =>
              obtain ⟨k2, v2⟩ := kv2
              exact Or.inr ⟨',', _, rfl, by decide⟩
          have hf : pField g (svStr k ++ ':' :: (svJson v ++ (svMoreFields tl ++ '}' :: rest))) =
              some ((k, v), svMoreFields tl ++ '}' :: rest) := by
            refine D k v _ ?_ hdok
            simp only [nfFieldsN] at hnf; omega
          have hmore : pMoreFields g (svMoreFields tl ++ '}' :: rest) =
              some (tl, rest) := by
            refine E tl rest ?_
            simp only [nfFieldsN] at hnf; omega
          simp only [pFieldList]
          simp only [svStr, List.cons_append, List.append_assoc, List.singleton_append]
          rw [skipWsJ_not_ws _ _ (by decide)]
          simp only [hasPrefixL]
          norm_num
          simp only [svStr, List.cons_append, List.append_assoc,
            List.singleton_append, List.nil_append] at hf ⊢
          rw [hf]
          simp [hmore]

theorem nfItems_bound (xs : List Json)
    (ihx : ∀ x ∈ xs, nfJson x + 1 ≤ 3 * (svJson x).length) :
    nfItemsN xs ≤ 3 * (svMoreItems xs).length + 1 := by
  induction xs with
  | nil => simp [nfItemsN, svMoreItems]
  | cons x tl ih =>
    have h1 := ihx x (by simp)
    have h2 := ih (fun z hz => ihx z (by simp [hz]))
    have e1 : nfItemsN (x :: tl) = 1 + nfJson x + nfItemsN tl := rfl
    have e2 : (svMoreItems (x :: tl)).length =
        1 + ((svJson x).length + (svMoreItems tl).length) := by
      simp [svMoreItems]; omega
    rw [e1, e2]; omega

theorem nfFields_bound (fs : List (String × Json))
    (ihx : ∀ kv ∈ fs, nfJson kv.2 + 1 ≤ 3 * (svJson kv.2).length) :
    nfFieldsN fs ≤ 3 * (svMoreFields fs).length + 1 := by
  induction fs with
  | nil => simp [nfFieldsN, svMoreFields]
  | cons kv tl ih =>
    obtain ⟨k, v⟩ := kv
    have h1 : nfJson v + 1 ≤ 3 * (svJson v).length := ihx (k, v) (by simp)
    have h2 := ih (fun z hz => ihx z (by simp [hz]))
    have e1 : nfFieldsN ((k, v) :: tl) = 2 + nfJson v + nfFieldsN tl := rfl
    have e2 : (svMoreFields ((k, v) :: tl)).length =
        1 + ((svStr k).length + (1 + ((svJson v).length + (svMoreFields tl).length))) := by
      simp [svMoreFields]; omega
    rw [e1, e2]; omega

theorem nf_bound : ∀ v : Json, nfJson v + 1 ≤ 3 * (svJson v).length := by
  suffices h : ∀ n, ∀ v : Json, sizeOf v ≤ n → nfJson v + 1 ≤ 3 * (svJson v).length by
    intro v; exact h (sizeOf v) v (le_refl _)
  intro n
  induction n using Nat.strong_induction_on with
  | _ n ih =>
    intro v hs
    cases v with
    | null => simp [nfJson, svJson]
    | bool b => cases b <;> simp [nfJson, svJson]
    | num m =>
      have : 1 ≤ (natDigits m).length :=
        List.length_pos.mpr (natDigits_ne_nil m)
      simp only [nfJson, svJson]
      omega
    | str s =>
      simp only [nfJson, svJson, svStr, List.length_cons]
      omega
    | arr xs =>
      have hsub : ∀ x ∈ xs, nfJson x + 1 ≤ 3 * (svJson x).length := by
        intro x hx
        have hlt : sizeOf x < sizeOf (Json.arr xs) := by
          have := List.sizeOf_lt_of_mem hx
          simp only [Json.arr.sizeOf_spec]; omega
        exact ih (sizeOf x) (by omega) x (le_refl _)
      cases xs with
      | nil => simp [nfJson, nfItemsN, svJson, svItems]
      | cons x tl =>
        have h1 := hsub x (by simp)
        have h2 := nfItems_bound tl (fun z hz => hsub z (by simp [hz]))
        simp only [nfJson, nfItemsN, svJson, svItems_cons, List.length_cons,
          List.length_append]
        omega
    | obj fs =>
      have hsub : ∀ kv ∈ fs, nfJson kv.2 + 1 ≤ 3 * (svJson kv.2).length := by
        intro kv hkv
        have hlt : sizeOf kv.2 < sizeOf (Json.obj fs) := by
          have h1 := List.sizeOf_lt_of_mem hkv
          obtain ⟨k, v⟩ := kv
          simp only [Json.obj.sizeOf_spec, Prod.mk.sizeOf_spec] at *
          omega
        exact ih (sizeOf kv.2) (by omega) kv.2 (le_refl _)
      cases fs with
      | nil => simp [nfJson, nfFieldsN, svJson, svFields]
      | cons kv tl =>
        obtain ⟨k, v⟩ := kv
        have h1 : nfJson v + 1 ≤ 3 * (svJson v).length := hsub (k, v) (by simp)
        have h2 := nfFields_bound tl (fun z hz => hsub z (by simp [hz]))
        have e1 : nfJson (Json.obj ((k, v) :: tl)) = 1 + (2 + nfJson v + nfFieldsN tl) := rfl
        have e2 : (svJson (Json.obj ((k, v) :: tl))).length =
            1 + (((svStr k).length + (1 + ((svJson v).length + (svMoreFields tl).length))) + 1) := by
          simp only [svJson, svFields_cons, List.length_cons, List.length_append,
            List.length_singleton, List.length_nil]
          omega
        rw [e1, e2]; omega

/-- The JSON printer-parser round trip: the decoder's direct-parse path
recovers exactly the serialized value. -/
theorem jsonParse_stringify (v : Json) : jsonParse (Json.stringify v) = some v := by
  have hdata : (Json.stringify v).data = svJson v := rfl
  have hfuel : nfJson v ≤ 3 * (svJson v).length + 3 := by
    have := nf_bound v
    omega
  have hmain := (jsonRT (3 * (svJson v).length + 3)).1 v [] hfuel (Or.inl rfl)
  rw [List.append_nil] at hmain
  simp only [jsonParse, hdata, hmain]
  simp [skipWsJ]

/-! ## Round trip and alphabet facts for the compression model -/

theorem alphaIdx_alphaChar : ∀ i, i < 64 → alphaIdx (alphaChar i) = some i := by decide

theorem alphaChar_props : ∀ i, i < 64 →
    isJsWs (alphaChar i) = false ∧ (alphaChar i = '%') = False ∧
    isB64SetChar (alphaChar i) = true ∧ (alphaChar i = '"') = False := by decide

theorem encVar_shape (n : Nat) : ∃ d ds, encVar n = d :: ds := by
  rw [encVar]
  by_cases h : n < 32
  · simp [h]
  · simp [h]

theorem decVar_encVar : ∀ n rest, decVar (encVar n ++ rest) = some (n, rest) := by
  intro n
  induction n using Nat.strong_induction_on with
  | _ n ih =>
    intro rest
    rw [encVar]
    by_cases h : n < 32
    · simp only [h, dif_pos, List.cons_append, List.nil_append]
      simp [decVar, alphaIdx_alphaChar (n + 32) (by omega)]
    · simp only [h, dif_neg, not_false_iff, List.cons_append]
      have hm : n % 32 < 32 := Nat.mod_lt _ (by omega)
      simp only [decVar, alphaIdx_alphaChar (n % 32) (by omega)]
      have : ¬(n % 32 ≥ 32) := by omega
      simp only [this, if_false, ge_iff_le]
      rw [ih (n / 32) (Nat.div_lt_self (by omega) (by omega)) rest]
      have hmd : n % 32 + 32 * (n / 32) = n := by
        have := Nat.mod_add_div n 32
        omega
      simp [hmd]

theorem encVar_mem (n : Nat) : ∀ c ∈ encVar n, ∃ i, i < 64 ∧ c = alphaChar i := by
  induction n using Nat.strong_induction_on with
  | _ n ih =>
    intro c hc
    rw [encVar] at hc
    by_cases h : n < 32
    · simp only [h, dif_pos, List.mem_singleton] at hc
      exact ⟨n + 32, by omega, hc⟩
    · simp only [h, dif_neg, not_false_iff, List.mem_cons] at hc
      rcases hc with rfl | hc
      · exact ⟨n % 32, by have := Nat.mod_lt n (y := 32) (by omega); omega, rfl⟩
      · exact ih (n / 32) (Nat.div_lt_self (by omega) (by omega)) c hc

theorem lzEncodeChars_mem : ∀ l, ∀ c ∈ lzEncodeChars l, ∃ i, i < 64 ∧ c = alphaChar i := by
  intro l
  induction l with
  | nil => intro c hc; simp [lzEncodeChars] at hc
  | cons x xs ih =>
    intro c hc
    simp only [lzEncodeChars, List.mem_append] at hc
    rcases hc with hc | hc
    · exact encVar_mem _ c hc
    · exact ih c hc

theorem encVar_ne_nil (n : Nat) : encVar n ≠ [] := by
  obtain ⟨d, ds, h⟩ := encVar_shape n
  simp [h]

theorem lzDecodeAux_encode :
    ∀ l f, (lzEncodeChars l).length ≤ f → lzDecodeAux f (lzEncodeChars l) = some l := by
  intro l
  induction l with
  | nil => intro f _; cases f <;> rfl
  | cons c cs ih =>
    intro f hf
    have hd := decVar_encVar c.toNat (lzEncodeChars cs)
    obtain ⟨d, ds, hshape⟩ := encVar_shape c.toNat
    have hlen : 1 + (lzEncodeChars cs).length ≤ f := by
      simp only [lzEncodeChars, List.length_append] at hf
      have : 1 ≤ (encVar c.toNat).length := by
        rw [hshape]; simp
      omega
    obtain ⟨g, rfl⟩ : ∃ g, f = g + 1 := ⟨f - 1, by omega⟩
    show lzDecodeAux (g + 1) (lzEncodeChars (c :: cs)) = some (c :: cs)
    have hcons : lzEncodeChars (c :: cs) = d :: (ds ++ lzEncodeChars cs) := by
      simp only [lzEncodeChars]
      rw [hshape]
      simp
    rw [hcons, lzDecodeAux]
    have hd2 : decVar (d :: (ds ++ lzEncodeChars cs)) = some (c.toNat, lzEncodeChars cs) := by
      rw [hshape] at hd
      simpa using hd
    rw [hd2]
    simp [ih g (by omega), Char.ofNat_toNat]
    simp

/-- The compression model round trip. -/
theorem decompress_compress (s : String) :
    decompressFromBase64 (compressToBase64 s) = some s := by
  simp only [decompressFromBase64, compressToBase64, data_ofChars]
  rw [lzDecodeAux_encode s.data _ (le_refl _)]
  simp [ofChars_data]

/-! ## Decoding an encoded token -/

theorem dropWhile_all_false {p : Char → Bool} (l : List Char)
    (h : ∀ c ∈ l, p c = false) : l.dropWhile p = l := by
  cases l with
  | nil => rfl
  | cons c cs => simp [List.dropWhile_cons, h c (by simp)]

theorem jsTrimL_id (l : List Char) (h : ∀ c ∈ l, isJsWs c = false) :
    jsTrimL l = l := by
  unfold jsTrimL
  rw [dropWhile_all_false l h]
  rw [dropWhile_all_false l.reverse (fun c hc => h c (List.mem_reverse.mp hc))]
  simp

theorem takeWhile_all_false {p : Char → Bool} (l : List Char)
    (h : ∀ c ∈ l, p c = false) : l.takeWhile p = [] := by
  cases l with
  | nil => rfl
  | cons c cs => simp [List.takeWhile_cons, h c (by simp)]

theorem takeDigitsRun_parts : ∀ l : List Char, l = (takeDigitsRun l).1 ++ (takeDigitsRun l).2 := by
  intro l
  induction l with
  | nil => rfl
  | cons c cs ih =>
    by_cases h : c.isDigit
    · simp only [takeDigitsRun, h, if_true]
      conv_lhs => rw [ih]
      simp
    · simp [takeDigitsRun, h]

theorem matchGroupsAux_no_ws (f : Nat) (l : List Char)
    (h : ∀ c ∈ l, isJsWs c = false) : matchGroupsAux f l = false := by
  cases f with
  | zero => rfl
  | succ g =>
    rw [matchGroupsAux]
    cases l with
    | nil => simp
    | cons c cs =>
      rw [takeWhile_all_false _ h]
      simp

theorem matchNumSeqL_no_ws (l : List Char) (h : ∀ c ∈ l, isJsWs c = false) :
    matchNumSeqL l = false := by
  rw [matchNumSeqL]
  have hparts := takeDigitsRun_parts l
  have hrest : ∀ c ∈ (takeDigitsRun l).2, isJsWs c = false := by
    intro c hc
    refine h c ?_
    rw [hparts]
    simp [hc]
  rw [matchGroupsAux_no_ws _ _ hrest]
  simp

theorem hasPctEscape_no_pct : ∀ l : List Char, '%' ∉ l → hasPctEscape l = false := by
  intro l
  induction l with
  | nil => intro _; rfl
  | cons c cs ih =>
    intro h
    have hc : (decide (c = '%')) = false := by
      simp only [decide_eq_false_iff_not]
      intro he; exact h (by simp [he])
    have hcs : '%' ∉ cs := fun hm => h (by simp [hm])
    cases cs with
    | nil =>
      have e : hasPctEscape [c] = ((decide (c = '%') && false) || false) := rfl
      rw [e, hc]
      simp
    | cons c2 cs2 =>
      cases cs2 with
      | nil =>
        have e : hasPctEscape [c, c2] =
            ((decide (c = '%') && false) || hasPctEscape [c2]) := rfl
        rw [e, hc, ih hcs]
        simp
      | cons c3 cs3 =>
        have e : hasPctEscape (c :: c2 :: c3 :: cs3) =
            ((decide (c = '%') && (isHexDigit c2 && isHexDigit c3)) ||
              hasPctEscape (c2 :: c3 :: cs3)) := rfl
        rw [e, hc, ih hcs]
        simp

theorem stringify_ne_empty (payload : Json) : Json.stringify payload ≠ "" := by
  obtain ⟨c, cs, hc, _⟩ := svJson_head payload
  intro he
  have hd : (Json.stringify payload).data = svJson payload := rfl
  rw [he, hc] at hd
  simp at hd

theorem tryParse_encoded (payload : Json) (sdp : String)
    (hget : getFieldJ payload "sdp" = some (Json.str sdp))
    (htr : payload.truthy = true)
    (hesc : hasSubstrL escRN sdp.data = false) :
    tryParse (compressToBase64 (Json.stringify payload)) = some payload := by
  simp only [tryParse, decompress_compress]
  rw [if_pos (by simpa using stringify_ne_empty payload)]
  rw [jsonParse_stringify]
  simp only [lzPostProcess, htr, if_true, hget, hesc]
  simp

theorem compress_chars_not_ws (s : String) :
    ∀ c ∈ (compressToBase64 s).data, isJsWs c = false := by
  intro c hc
  have hmem : c ∈ lzEncodeChars s.data := by
    simpa [compressToBase64, data_ofChars] using hc
  obtain ⟨i, hi, rfl⟩ := lzEncodeChars_mem _ c hmem
  exact (alphaChar_props i hi).1

theorem jsTrim_id_of_not_ws (s : String) (h : ∀ c ∈ s.data, isJsWs c = false) :
    jsTrim s = s := by
  rw [jsTrim, jsTrimL_id _ h, ofChars_data]

theorem firstTruthy_cons_truthy (c : String) (cs : List String) (v : Json)
    (h : tryParse c = some v) (ht : v.truthy = true) :
    firstTruthy (c :: cs) = some v := by
  have e : firstTruthy (c :: cs) =
      (match tryParse c with
       | some w => if w.truthy then some w else firstTruthy cs
       | none => firstTruthy cs) := rfl
  rw [e, h]
  simp [ht]

/-- Decoding the token produced for a payload recovers the payload:
the first candidate is the token itself and its decompression branch
succeeds. -/
theorem parseSDP_encoded (payload : Json) (sdp : String)
    (hget : getFieldJ payload "sdp" = some (Json.str sdp))
    (htr : payload.truthy = true)
    (hesc : hasSubstrL escRN sdp.data = false) :
    parseSDPFromQR (compressToBase64 (Json.stringify payload)) = some payload := by
  have htrim : jsTrim (compressToBase64 (Json.stringify payload)) =
      compressToBase64 (Json.stringify payload) :=
    jsTrim_id_of_not_ws _ (compress_chars_not_ws _)
  simp only [parseSDPFromQR, qrCandidates, htrim]
  rw [List.singleton_append, List.cons_append]
  exact firstTruthy_cons_truthy _ _ payload
    (tryParse_encoded payload sdp hget htr hesc) htr

/-! ## Reducer fold invariants -/

/-- The media-section header lines of a document, in order. -/
def mediaHeaders (t : String) : List String :=
  (splitLines t).filter (fun l => jsStartsWith l "m=")

theorem data_append (a b : String) : (a ++ b).data = a.data ++ b.data := rfl

theorem dropWhile_nil_all {p : Char → Bool} :
    ∀ l : List Char, l.dropWhile p = [] → ∀ a ∈ l, p a = true := by
  intro l
  induction l with
  | nil => intro _ a ha; simp at ha
  | cons c cs ih =>
    intro h a ha
    rw [List.dropWhile_cons] at h
    by_cases hc : p c
    · rw [if_pos hc] at h
      rcases List.mem_cons.mp ha with rfl | hm
      · exact hc
      · exact ih h a hm
    · rw [if_neg hc] at h
      simp at h

theorem jsTrim_ne_empty_head (c : Char) (cs : List Char) (hc : isJsWs c = false) :
    jsTrimL (c :: cs) ≠ [] := by
  intro h
  unfold jsTrimL at h
  rw [List.dropWhile_cons, if_neg (by simp [hc])] at h
  have h2 : (c :: cs).reverse.dropWhile isJsWs = [] := by
    rcases he : (c :: cs).reverse.dropWhile isJsWs with _ | ⟨x, xs⟩
    · rfl
    · rw [he] at h; simp at h
  have := dropWhile_nil_all _ h2 c (by simp)
  rw [hc] at this
  exact absurd this (by simp)

theorem hasPrefixL_cons_inv (p : Char) (ps l : List Char)
    (h : hasPrefixL (p :: ps) l = true) :
    ∃ tl, l = p :: tl ∧ hasPrefixL ps tl = true := by
  cases l with
  | nil => simp [hasPrefixL] at h
  | cons c cs =>
    simp only [hasPrefixL, Bool.and_eq_true, decide_eq_true_eq] at h
    exact ⟨cs, by rw [h.1], h.2⟩

theorem startsWith_m_trim_ne (line : String) (h : jsStartsWith line "m=" = true) :
    ¬(jsTrim line = "") := by
  obtain ⟨tl, hl, _⟩ := hasPrefixL_cons_inv 'm' _ _ h
  intro he
  have : jsTrimL line.data = [] := by
    have : (jsTrim line).data = [] := by rw [he]
    simpa [jsTrim] using this
  rw [hl] at this
  exact jsTrim_ne_empty_head 'm' tl (by decide) this

theorem reduceStep_lines (st : ReduceState) (line : String) :
    (reduceStep st line).compressedLines = st.compressedLines ∨
    (reduceStep st line).compressedLines = st.compressedLines ++ [line] := by
  unfold reduceStep
  split_ifs <;> simp

theorem reduceStep_filter_m (st : ReduceState) (line : String) :
    ((reduceStep st line).compressedLines).filter (fun l => jsStartsWith l "m=") =
      st.compressedLines.filter (fun l => jsStartsWith l "m=") ++
        (if jsStartsWith line "m=" = true then [line] else []) := by
  by_cases hm : jsStartsWith line "m=" = true
  · rw [if_pos hm]
    have htr := startsWith_m_trim_ne line hm
    unfold reduceStep
    rw [if_neg htr, if_pos hm]
    simp [List.filter_append, hm]
  · rw [if_neg hm, List.append_nil]
    rcases reduceStep_lines st line with h | h
    · rw [h]
    · rw [h, List.filter_append]
      simp only [List.filter_cons]
      rw [if_neg (by simp [hm])]
      simp

theorem reduceFold_filter_m : ∀ (ls : List String) (st : ReduceState),
    ((ls.foldl reduceStep st).compressedLines).filter (fun l => jsStartsWith l "m=") =
      st.compressedLines.filter (fun l => jsStartsWith l "m=") ++
        ls.filter (fun l => jsStartsWith l "m=") := by
  intro ls
  induction ls with
  | nil => intro st; simp
  | cons line ls ih =>
    intro st
    rw [List.foldl_cons, ih, reduceStep_filter_m]
    rw [List.filter_cons]
    by_cases hm : jsStartsWith line "m=" = true
    · simp [hm]
    · simp [hm]

theorem reduceFold_mem : ∀ (ls : List String) (st : ReduceState) (l : String),
    l ∈ (ls.foldl reduceStep st).compressedLines →
    l ∈ st.compressedLines ∨ l ∈ ls := by
  intro ls
  induction ls with
  | nil => intro st l h; exact Or.inl h
  | cons line ls ih =>
    intro st l h
    rw [List.foldl_cons] at h
    rcases ih (reduceStep st line) l h with h2 | h2
    · rcases reduceStep_lines st line with he | he
      · rw [he] at h2; exact Or.inl h2
      · rw [he] at h2
        rcases List.mem_append.mp h2 with h3 | h3
        · exact Or.inl h3
        · simp at h3; subst h3; exact Or.inr (by simp)
    · exact Or.inr (by simp [h2])

theorem splitOnCharAux_no_sep (sep : Char) :
    ∀ (l acc : List Char), (∀ c ∈ acc, c ≠ sep) →
      ∀ p ∈ splitOnCharAux sep l acc, ∀ c ∈ p, c ≠ sep := by
  intro l
  induction l with
  | nil =>
    intro acc hacc p hp c hc
    simp only [splitOnCharAux, List.mem_singleton] at hp
    subst hp
    exact hacc c (List.mem_reverse.mp hc)
  | cons x xs ih =>
    intro acc hacc p hp c hc
    rw [splitOnCharAux] at hp
    by_cases hx : x = sep
    · rw [if_pos hx] at hp
      rcases List.mem_cons.mp hp with rfl | hm
      · exact hacc c (List.mem_reverse.mp hc)
      · exact ih [] (by simp) p hm c hc
    · rw [if_neg hx] at hp
      refine ih (x :: acc) ?_ p hp c hc
      intro d hd
      rcases List.mem_cons.mp hd with rfl | hm
      · exact hx
      · exact hacc d hm

theorem splitLines_no_nl (t : String) :
    ∀ p ∈ splitLines t, ∀ c ∈ p.data, c ≠ '\n' := by
  intro p hp c hc
  simp only [splitLines, splitOnChar, List.mem_map] at hp
  obtain ⟨q, hq, rfl⟩ := hp
  exact splitOnCharAux_no_sep '\n' t.data [] (by simp) q hq c hc

theorem splitOnCharAux_no_sep_single (sep : Char) :
    ∀ (l acc : List Char), (∀ c ∈ l, c ≠ sep) →
      splitOnCharAux sep l acc = [acc.reverse ++ l] := by
  intro l
  induction l with
  | nil => intro acc _; simp [splitOnCharAux]
  | cons x xs ih =>
    intro acc h
    rw [splitOnCharAux, if_neg (h x (by simp))]
    rw [ih (x :: acc) (fun c hc => h c (by simp [hc]))]
    simp

theorem splitOnCharAux_sep_split (sep : Char) :
    ∀ (l acc rest : List Char), (∀ c ∈ l, c ≠ sep) →
      splitOnCharAux sep (l ++ sep :: rest) acc =
        (acc.reverse ++ l) :: splitOnCharAux sep rest [] := by
  intro l
  induction l with
  | nil => intro acc rest _; simp [splitOnCharAux]
  | cons x xs ih =>
    intro acc rest h
    simp only [List.cons_append, splitOnCharAux]
    rw [if_neg (h x (by simp))]
    rw [show (xs.append (sep :: rest)) = xs ++ sep :: rest from rfl]
    rw [ih (x :: acc) rest (fun c hc => h c (by simp [hc]))]
    simp

theorem splitLines_joinNl : ∀ ls : List String, ls ≠ [] →
    (∀ l ∈ ls, ∀ c ∈ l.data, c ≠ '\n') → splitLines (joinNl ls) = ls := by
  intro ls
  induction ls with
  | nil => intro h _; exact absurd rfl h
  | cons s tl ih =>
    intro _ hfree
    cases tl with
    | nil =>
      show splitLines s = [s]
      simp only [splitLines, splitOnChar]
      rw [splitOnCharAux_no_sep_single '\n' s.data [] (hfree s (by simp))]
      simp [ofChars_data]
    | cons t tl2 =>
      have hjoin : joinNl (s :: t :: tl2) = s ++ "\n" ++ joinNl (t :: tl2) := rfl
      rw [hjoin]
      simp only [splitLines, splitOnChar]
      have hdata : (s ++ "\n" ++ joinNl (t :: tl2)).data =
          s.data ++ '\n' :: (joinNl (t :: tl2)).data := by
        rw [data_append, data_append]
        simp [List.append_assoc]
      rw [hdata]
      rw [splitOnCharAux_sep_split '\n' s.data [] _ (hfree s (by simp))]
      have ihr := ih (by simp) (fun l hl => hfree l (by simp [hl]))
      simp only [splitLines, splitOnChar] at ihr
      simp only [List.map_cons, List.reverse_nil, List.nil_append, ofChars_data, ihr]

theorem mediaHeaders_reduceSDP (text : String) :
    mediaHeaders (reduceSDP text) = mediaHeaders text := by
  have hfold := reduceFold_filter_m (splitLines text) initReduceState
  rcases h : reduceLines (splitLines text) with _ | ⟨l0, ltl⟩
  · rw [mediaHeaders, reduceSDP, h]
    show List.filter _ (splitLines "") = mediaHeaders text
    rw [mediaHeaders]
    rw [reduceLines] at h
    rw [h] at hfold
    simp only [initReduceState, List.filter_nil, List.nil_append] at hfold
    rw [← hfold]
    rfl
  · rw [mediaHeaders, reduceSDP, h]
    rw [splitLines_joinNl (l0 :: ltl) (by simp) ?hfree]
    case hfree =>
      intro l hl c hc
      have hmem : l ∈ reduceLines (splitLines text) := by rw [h]; exact hl
      rw [reduceLines] at hmem
      rcases reduceFold_mem _ _ _ hmem with h2 | h2
      · simp [initReduceState] at h2
      · exact splitLines_no_nl text l h2 c hc
    rw [← h]
    rw [reduceLines] at *
    rw [hfold]
    simp [initReduceState, mediaHeaders]

theorem formatSDPForQR_wf (ty text : String)
    (hbrace : jsStartsWith (jsTrim text) "\x7b" = false) :
    formatSDPForQR (Json.obj [("type", Json.str ty), ("sdp", Json.str text)]) =
      compressToBase64 (Json.stringify (Json.obj
        [("type", Json.str ty), ("sdp", Json.str (reduceSDP text))])) := by
  have h1 : getFieldJ (Json.obj [("type", Json.str ty), ("sdp", Json.str text)]) "sdp" =
      some (Json.str text) := rfl
  have h2 : getFieldJ (Json.obj [("type", Json.str ty), ("sdp", Json.str text)]) "type" =
      some (Json.str ty) := rfl
  have h3 : getFieldJ (Json.obj [("sdp", Json.str text)]) "sdp" =
      some (Json.str text) := rfl
  simp only [formatSDPForQR, formatBody, h1, h2, h3, hbrace, Bool.false_eq_true,
    if_false]
  simp

/-- C1 (amended): for every SessionDescription whose text, after trimming,
does not open with a brace (which would send encode into its JSON-parse
prologue and the fallback) and whose reduced text does not contain the
literal backslash-r-backslash-n sequence (which would trigger the decoder's
unescaping rewrite), decoding the token produced by encoding the
description yields exactly the record whose type equals the input type and
whose text is the reduced input; and the media-section header lines of the
reduced input are exactly those of the original input, in order, so the
decoded text contains every media-section header line of the reduced input
in the same relative order. -/
theorem c1_roundtrip_amended (ty text : String)
    (hbrace : jsStartsWith (jsTrim text) "\x7b" = false)
    (hesc : hasSubstrL escRN (reduceSDP text).data = false)
    (hmedia : mediaHeaders text ≠ []) :
    parseSDPFromQR (formatSDPForQR (Json.obj
        [("type", Json.str ty), ("sdp", Json.str text)])) =
      some (Json.obj [("type", Json.str ty), ("sdp", Json.str (reduceSDP text))]) ∧
    mediaHeaders (reduceSDP text) = mediaHeaders text := by
  constructor
  · rw [formatSDPForQR_wf ty text hbrace]
    exact parseSDP_encoded _ (reduceSDP text) rfl rfl hesc
  · exact mediaHeaders_reduceSDP text

/-- C1 counterexample: a SessionDescription whose text has a media-section
header line but opens with a brace. Encoding falls back to the plain JSON
serialization, and decoding that serialization fails in the decoder's
nested-parse step (the brace-led sdp string is not valid JSON, the thrown
exception makes tryParse return null), so decode(encode(d)) is null, not a
record preserving the kind: the claim as stated is false at this input. -/
theorem c1_roundtrip_counterexample :
    mediaHeaders "\x7b\nm=audio 9 UDP/TLS/RTP/SAVPF 111 0" ≠ [] ∧
    parseSDPFromQR (formatSDPForQR (Json.obj
      [("type", Json.str "offer"),
       ("sdp", Json.str "\x7b\nm=audio 9 UDP/TLS/RTP/SAVPF 111 0")])) = none := by
  constructor
  · decide
  · decide

/-- C1 witness: the amended round trip at a concrete two-codec audio
description. -/
theorem c1_roundtrip_witness :
    parseSDPFromQR (formatSDPForQR (Json.obj
        [("type", Json.str "offer"),
         ("sdp", Json.str "v=0\nm=audio 9 UDP/TLS/RTP/SAVPF 111 0\na=rtpmap:111 opus/48000/2")])) =
      some (Json.obj [("type", Json.str "offer"),
        ("sdp", Json.str (reduceSDP "v=0\nm=audio 9 UDP/TLS/RTP/SAVPF 111 0\na=rtpmap:111 opus/48000/2"))]) ∧
    mediaHeaders (reduceSDP "v=0\nm=audio 9 UDP/TLS/RTP/SAVPF 111 0\na=rtpmap:111 opus/48000/2") =
      mediaHeaders "v=0\nm=audio 9 UDP/TLS/RTP/SAVPF 111 0\na=rtpmap:111 opus/48000/2" :=
  c1_roundtrip_amended "offer" _ (by decide) (by decide) (by decide)

/-! ## The reducer on documents with no media section -/

/-- The lines a zero-media document keeps: nonempty after trimming and
carrying one of the unconditional keep prefixes (media header, session
level, critical attribute, codec attribute); candidate and
end-of-candidates lines need an open media section and are dropped. -/
def keepWithoutMedia (l : String) : Bool :=
  !(jsTrim l == "") &&
    (jsStartsWith l "m=" || isSessionLine l || isCriticalAttr l || isCodecAttr l)

theorem reduceFold_noMedia : ∀ (ls : List String) (st : ReduceState),
    (∀ l ∈ ls, jsStartsWith l "m=" = false) → st.mediaIndex = -1 →
    (ls.foldl reduceStep st).compressedLines
        = st.compressedLines ++ ls.filter keepWithoutMedia ∧
    (ls.foldl reduceStep st).mediaIndex = -1 := by
  intro ls
  induction ls with
  | nil => intro st _ hmi; simp [hmi]
  | cons line ls ih =>
    intro st h hmi
    have hm : jsStartsWith line "m=" = false := h line (by simp)
    have hrest : ∀ l ∈ ls, jsStartsWith l "m=" = false := fun l hl => h l (by simp [hl])
    rw [List.foldl_cons, List.filter_cons]
    by_cases h0 : jsTrim line = ""
    · have hstep : reduceStep st line = st := by
        unfold reduceStep
        rw [if_pos h0]
      have hkeep : keepWithoutMedia line = false := by
        simp [keepWithoutMedia, h0]
      rw [hstep, hkeep]
      simpa using ih st hrest hmi
    · have hkeepEq : keepWithoutMedia line =
          (jsStartsWith line "m=" || isSessionLine line || isCriticalAttr line ||
            isCodecAttr line) := by
        simp [keepWithoutMedia, h0]
      by_cases hs : isSessionLine line = true
      · have hstep : reduceStep st line =
            { st with compressedLines := st.compressedLines ++ [line] } := by
          unfold reduceStep
          rw [if_neg h0, if_neg (by simp [hm]), if_pos hs]
        have hkeep : keepWithoutMedia line = true := by rw [hkeepEq]; simp [hs]
        rw [hstep, hkeep]
        obtain ⟨e1, e2⟩ := ih { st with compressedLines := st.compressedLines ++ [line] }
          hrest hmi
        rw [e1]
        simp [e2]
      by_cases hcrit : isCriticalAttr line = true
      · have hstep : reduceStep st line =
            { st with compressedLines := st.compressedLines ++ [line] } := by
          unfold reduceStep
          rw [if_neg h0, if_neg (by simp [hm]), if_neg (by simp [hs]), if_pos hcrit]
        have hkeep : keepWithoutMedia line = true := by rw [hkeepEq]; simp [hcrit]
        rw [hstep, hkeep]
        obtain ⟨e1, e2⟩ := ih { st with compressedLines := st.compressedLines ++ [line] }
          hrest hmi
        rw [e1]
        simp [e2]
      by_cases hcodec : isCodecAttr line = true
      · have hstep : reduceStep st line =
            { st with compressedLines := st.compressedLines ++ [line] } := by
          unfold reduceStep
          rw [if_neg h0, if_neg (by simp [hm]), if_neg (by simp [hs]),
            if_neg (by simp [hcrit]), if_pos hcodec]
        have hkeep : keepWithoutMedia line = true := by rw [hkeepEq]; simp [hcodec]
        rw [hstep, hkeep]
        obtain ⟨e1, e2⟩ := ih { st with compressedLines := st.compressedLines ++ [line] }
          hrest hmi
        rw [e1]
        simp [e2]
      · have hkeep : keepWithoutMedia line = false := by
          rw [hkeepEq]
          simp [hm, hs, hcrit, hcodec]
        have hstep : reduceStep st line = st := by
          unfold reduceStep
          rw [if_neg h0, if_neg (by simp [hm]), if_neg (by simp [hs]),
            if_neg (by simp [hcrit]), if_neg (by simp [hcodec])]
          by_cases hcand : jsStartsWith line "a=candidate:" = true
          · rw [if_pos hcand, hmi]
            simp
          · rw [if_neg (by simp [hcand])]
            by_cases hend : jsStartsWith line "a=end-of-candidates" = true
            · rw [if_pos hend, hmi]
              simp
            · rw [if_neg (by simp [hend])]
        rw [hstep, hkeep]
        simpa using ih st hrest hmi

/-- Modelled from the spec (section 4.1 contract sentence): the output the
claim asserts for a zero-media document, exactly the document's
session-level lines (version, origin, session-name, timing, connection)
and nothing else. Written from the spec's words for comparison with the
source-derived reducer. -/
def sessionLevelLinesSpec (text : String) : String :=
  joinNl ((splitLines text).filter isSessionLine)

/-- C6 (amended): reduce is a total function by construction, and a
document with zero media-section header lines reduces to exactly its lines
kept by the unconditional prefix rules: session-level lines together with
the always-kept singleton attributes and codec-mapping lines, every
candidate-related line being dropped; this is not in general just the
session-level lines. -/
theorem c6_zero_media_amended (text : String)
    (h : ∀ l ∈ splitLines text, jsStartsWith l "m=" = false) :
    reduceSDP text = joinNl ((splitLines text).filter keepWithoutMedia) := by
  rw [reduceSDP, reduceLines, (reduceFold_noMedia _ initReduceState h rfl).1]
  simp [initReduceState]

/-- C6 counterexample: a zero-media document carrying a session-level ICE
username-fragment attribute. The reducer keeps that attribute line, so the
output is not "just its session-level lines" as the claim states. -/
theorem c6_zero_media_counterexample :
    (∀ l ∈ splitLines "v=0\na=ice-ufrag:abc", jsStartsWith l "m=" = false) ∧
    reduceSDP "v=0\na=ice-ufrag:abc" = "v=0\na=ice-ufrag:abc" ∧
    reduceSDP "v=0\na=ice-ufrag:abc" ≠
      sessionLevelLinesSpec "v=0\na=ice-ufrag:abc" := by
  refine ⟨by decide, by decide, by decide⟩

/-- C6 witness: the amended statement at a document with a session-level
attribute, a candidate line and an unknown line, none of them media
headers. -/
theorem c6_zero_media_witness :
    reduceSDP "v=0\na=ice-ufrag:abc\na=candidate:1 1 udp 2122 10.0.0.5 9 typ host\nx=1" =
      joinNl ((splitLines
        "v=0\na=ice-ufrag:abc\na=candidate:1 1 udp 2122 10.0.0.5 9 typ host\nx=1").filter
          keepWithoutMedia) :=
  c6_zero_media_amended _ (by decide)

/-! ## Candidate filtering invariants (one candidate per section, all good) -/

theorem hasPrefixL_exists (ps : List Char) : ∀ l, hasPrefixL ps l = true →
    ∃ tl, l = ps ++ tl := by
  induction ps with
  | nil => intro l _; exact ⟨l, rfl⟩
  | cons p ps ih =>
    intro l h
    cases l with
    | nil => simp [hasPrefixL] at h
    | cons c cs =>
      simp only [hasPrefixL, Bool.and_eq_true, decide_eq_true_eq] at h
      obtain ⟨tl, htl⟩ := ih cs h.2
      exact ⟨tl, by rw [h.1, htl]; rfl⟩

theorem not_cand_of_head (line : String) (p : Char) (ps : List Char)
    (h : hasPrefixL (p :: ps) line.data = true) (hne : p ≠ 'a') :
    jsStartsWith line "a=candidate:" = false := by
  obtain ⟨tl, htl⟩ := hasPrefixL_exists (p :: ps) line.data h
  rw [jsStartsWith, htl]
  have hdq : ("a=candidate:").data = 'a' :: "=candidate:".data := rfl
  rw [hdq]
  simp only [List.cons_append, hasPrefixL]
  have hne2 : ('a' = p) = False := by
    simp only [eq_iff_iff, iff_false]
    exact fun he => hne he.symm
  simp [hne2]

theorem not_cand_of_third (line : String) (c2 : Char) (ps : List Char)
    (h : hasPrefixL ('a' :: '=' :: c2 :: ps) line.data = true) (hne : c2 ≠ 'c') :
    jsStartsWith line "a=candidate:" = false := by
  obtain ⟨tl, htl⟩ := hasPrefixL_exists _ line.data h
  rw [jsStartsWith, htl]
  have hdq : ("a=candidate:").data = 'a' :: '=' :: 'c' :: "andidate:".data := rfl
  rw [hdq]
  simp only [List.cons_append, hasPrefixL]
  have hne2 : ('c' = c2) = False := by
    simp only [eq_iff_iff, iff_false]
    exact fun he => hne he.symm
  simp [hne2]

/-- Lines kept by the non-candidate keep branches never start with the
candidate prefix. -/
theorem keep_not_candidate (line : String)
    (h : jsStartsWith line "m=" = true ∨ isSessionLine line = true ∨
      isCriticalAttr line = true ∨ isCodecAttr line = true ∨
      jsStartsWith line "a=end-of-candidates" = true) :
    jsStartsWith line "a=candidate:" = false := by
  rcases h with h | h | h | h | h
  · exact not_cand_of_head line 'm' _ h (by decide)
  · simp only [isSessionLine, Bool.or_eq_true] at h
    rcases h with ((((h | h) | h) | h) | h)
    · exact not_cand_of_head line 'v' _ h (by decide)
    · exact not_cand_of_head line 'o' _ h (by decide)
    · exact not_cand_of_head line 's' _ h (by decide)
    · exact not_cand_of_head line 't' _ h (by decide)
    · exact not_cand_of_head line 'c' _ h (by decide)
  · simp only [isCriticalAttr, Bool.or_eq_true] at h
    rcases h with ((((((((((h | h) | h) | h) | h) | h) | h) | h) | h) | h) | h)
    · exact not_cand_of_third line 'i' _ h (by decide)
    · exact not_cand_of_third line 'i' _ h (by decide)
    · exact not_cand_of_third line 'f' _ h (by decide)
    · exact not_cand_of_third line 's' _ h (by decide)
    · exact not_cand_of_third line 'r' _ h (by decide)
    · exact not_cand_of_third line 'r' _ h (by decide)
    · exact not_cand_of_third line 'm' _ h (by decide)
    · exact not_cand_of_third line 's' _ h (by decide)
    · exact not_cand_of_third line 'r' _ h (by decide)
    · exact not_cand_of_third line 's' _ h (by decide)
    · exact not_cand_of_third line 'i' _ h (by decide)
  · simp only [isCodecAttr, Bool.or_eq_true] at h
    rcases h with h | h
    · exact not_cand_of_third line 'r' _ h (by decide)
    · exact not_cand_of_third line 'f' _ h (by decide)
  · exact not_cand_of_third line 'e' _ h (by decide)

/-- Scan a line list, tracking how many more candidate lines the current
section may carry (each media header resets the allowance to one); none
means some section carried more candidate lines than allowed, or a
candidate line appeared with no allowance. -/
def candScan : List String → Nat → Option Nat
  | [], b => some b
  | l :: ls, b =>
    if jsStartsWith l "m=" then candScan ls 1
    else if jsStartsWith l "a=candidate:" then
      if b > 0 then candScan ls (b - 1) else none
    else candScan ls b

theorem candScan_append : ∀ (xs ys : List String) (b : Nat),
    candScan (xs ++ ys) b =
      match candScan xs b with
      | some b2 => candScan ys b2
      | none => none := by
  intro xs
  induction xs with
  | nil => intro ys b; rfl
  | cons l xs ih =>
    intro ys b
    simp only [List.cons_append, candScan]
    rw [show xs.append ys = xs ++ ys from rfl]
    by_cases hm : jsStartsWith l "m=" = true
    · rw [if_pos hm, if_pos hm, ih]
    · rw [if_neg hm, if_neg hm]
      by_cases hc : jsStartsWith l "a=candidate:" = true
      · rw [if_pos hc, if_pos hc]
        by_cases hb : b > 0
        · rw [if_pos hb, if_pos hb, ih]
        · rw [if_neg hb, if_neg hb]
      · rw [if_neg hc, if_neg hc, ih]

/-- The candidate allowance of the reducer's current section. -/
def candBudget (st : ReduceState) : Nat :=
  if st.mediaIndex ≥ 0 && !(st.keptCandidateForMedia.contains st.mediaIndex) then 1 else 0

/-- The combined reducer invariant for the candidate claims. -/
def CandInv (st : ReduceState) : Prop :=
  (∀ l ∈ st.compressedLines, jsStartsWith l "a=candidate:" = true →
    goodCandidate l = true) ∧
  candScan st.compressedLines 0 = some (candBudget st) ∧
  (∀ i ∈ st.keptCandidateForMedia, i ≤ st.mediaIndex) ∧
  st.mediaIndex ≥ -1

theorem candScan_push_other (acc : List String) (line : String)
    (hm : jsStartsWith line "m=" = false)
    (hc : jsStartsWith line "a=candidate:" = false)
    (b b2 : Nat) (h : candScan acc b = some b2) :
    candScan (acc ++ [line]) b = some b2 := by
  rw [candScan_append, h]
  simp [candScan, hm, hc]

theorem CandInv_init : CandInv initReduceState := by
  refine ⟨?_, ?_, ?_, ?_⟩
  · intro l hl; simp [initReduceState] at hl
  · rfl
  · intro i hi; simp [initReduceState] at hi
  · simp [initReduceState]

theorem reduceStep_CandInv (st : ReduceState) (line : String) (h : CandInv st) :
    CandInv (reduceStep st line) := by
  obtain ⟨hGood, hScan, hKept, hMi⟩ := h
  by_cases h0 : jsTrim line = ""
  · have hstep : reduceStep st line = st := by
      unfold reduceStep
      rw [if_pos h0]
    rw [hstep]
    exact ⟨hGood, hScan, hKept, hMi⟩
  by_cases hm : jsStartsWith line "m=" = true
  · have hstep : (reduceStep st line).compressedLines = st.compressedLines ++ [line] ∧
        (reduceStep st line).mediaIndex = st.mediaIndex + 1 ∧
        (reduceStep st line).keptCandidateForMedia = st.keptCandidateForMedia := by
      unfold reduceStep
      rw [if_neg h0, if_pos hm]
      by_cases hp : (splitOnChar ' ' line).length > 3 <;> simp [hp]
    obtain ⟨e1, e2, e3⟩ := hstep
    have hnotc := keep_not_candidate line (Or.inl hm)
    refine ⟨?_, ?_, ?_, ?_⟩
    · rw [e1]
      intro l hl hcand
      rcases List.mem_append.mp hl with h2 | h2
      · exact hGood l h2 hcand
      · simp only [List.mem_singleton] at h2
        subst h2
        rw [hnotc] at hcand
        simp at hcand
    · rw [e1, candScan_append, hScan]
      have hone : candScan [line] (candBudget st) = some 1 := by
        simp [candScan, hm]
      have hmem : ¬(st.mediaIndex + 1 ∈ st.keptCandidateForMedia) := by
        intro hx
        have := hKept _ hx
        omega
      have hbud : candBudget (reduceStep st line) = 1 := by
        unfold candBudget
        rw [e2, e3]
        have hge : (st.mediaIndex + 1 ≥ 0) := by omega
        simp [List.contains, hmem, hge]
      show candScan [line] (candBudget st) = some (candBudget (reduceStep st line))
      rw [hone, hbud]
    · rw [e2, e3]
      intro i hi
      have := hKept i hi
      omega
    · rw [e2]
      omega
  · -- not a media header: the state may keep a non-candidate line, keep a
    -- good candidate, or stay unchanged
    by_cases hpush : isSessionLine line = true ∨ isCriticalAttr line = true ∨
        isCodecAttr line = true ∨
        (jsStartsWith line "a=end-of-candidates" = true ∧
          ¬(isSessionLine line = true) ∧ ¬(isCriticalAttr line = true) ∧
          ¬(isCodecAttr line = true) ∧ ¬(jsStartsWith line "a=candidate:" = true) ∧
          (st.mediaIndex ≥ 0 && st.keptAnyCandidateForMedia.contains st.mediaIndex) = true)
    · -- a keep branch for a non-candidate line: only compressedLines changes
      have hnotc : jsStartsWith line "a=candidate:" = false := by
        rcases hpush with hx | hx | hx | hx
        · exact keep_not_candidate line (Or.inr (Or.inl hx))
        · exact keep_not_candidate line (Or.inr (Or.inr (Or.inl hx)))
        · exact keep_not_candidate line (Or.inr (Or.inr (Or.inr (Or.inl hx))))
        · exact keep_not_candidate line (Or.inr (Or.inr (Or.inr (Or.inr hx.1))))
      have hstep : (reduceStep st line).compressedLines = st.compressedLines ++ [line] ∧
          (reduceStep st line).mediaIndex = st.mediaIndex ∧
          (reduceStep st line).keptCandidateForMedia = st.keptCandidateForMedia := by
        unfold reduceStep
        rw [if_neg h0, if_neg (by simp [hm])]
        rcases hpush with hx | hx | hx | hx
        · rw [if_pos hx]
          simp
        · by_cases hs : isSessionLine line = true
          · rw [if_pos hs]; simp
          · rw [if_neg hs, if_pos hx]; simp
        · by_cases hs : isSessionLine line = true
          · rw [if_pos hs]; simp
          · rw [if_neg hs]
            by_cases hcr : isCriticalAttr line = true
            · rw [if_pos hcr]; simp
            · rw [if_neg hcr, if_pos hx]; simp
        · obtain ⟨hend, hs, hcr, hcd, hcand, hcond⟩ := hx
          rw [if_neg hs, if_neg hcr, if_neg hcd, if_neg (by simp [hcand]),
            if_pos hend, if_pos hcond]
          simp
      obtain ⟨e1, e2, e3⟩ := hstep
      refine ⟨?_, ?_, ?_, ?_⟩
      · rw [e1]
        intro l hl hcand
        rcases List.mem_append.mp hl with h2 | h2
        · exact hGood l h2 hcand
        · simp only [List.mem_singleton] at h2
          subst h2
          rw [hnotc] at hcand
          simp at hcand
      · rw [e1]
        have := candScan_push_other st.compressedLines line (by simp [hm]) hnotc 0
          (candBudget st) hScan
        rw [this]
        congr 1
        unfold candBudget
        rw [e2, e3]
      · rw [e2, e3]
        exact hKept
      · rw [e2]
        exact hMi
    · -- candidate branch or drop branch
      push_neg at hpush
      obtain ⟨hs, hcr, hcd, hrest⟩ := hpush
      by_cases hcand : jsStartsWith line "a=candidate:" = true
      · by_cases hcond : (st.mediaIndex ≥ 0 &&
            !(st.keptCandidateForMedia.contains st.mediaIndex)) = true
        · by_cases hgood : goodCandidate line = true
          · -- the kept-candidate branch
            have hstep : (reduceStep st line).compressedLines =
                  st.compressedLines ++ [line] ∧
                (reduceStep st line).mediaIndex = st.mediaIndex ∧
                (reduceStep st line).keptCandidateForMedia =
                  st.mediaIndex :: st.keptCandidateForMedia := by
              unfold reduceStep
              rw [if_neg h0, if_neg (by simp [hm]), if_neg (by simp [hs]),
                if_neg (by simp [hcr]), if_neg (by simp [hcd]), if_pos hcand,
                if_pos hcond, if_pos hgood]
              simp
            obtain ⟨e1, e2, e3⟩ := hstep
            refine ⟨?_, ?_, ?_, ?_⟩
            · rw [e1]
              intro l hl hc2
              rcases List.mem_append.mp hl with h2 | h2
              · exact hGood l h2 hc2
              · simp only [List.mem_singleton] at h2
                subst h2
                exact hgood
            · rw [e1, candScan_append, hScan]
              have hbud1 : candBudget st = 1 := by
                unfold candBudget
                rw [if_pos hcond]
              have hline : candScan [line] (candBudget st) = some 0 := by
                rw [hbud1]
                simp [candScan, hm, hcand]
              have hbud0 : candBudget (reduceStep st line) = 0 := by
                unfold candBudget
                rw [e2, e3]
                simp [List.contains]
              show candScan [line] (candBudget st) =
                some (candBudget (reduceStep st line))
              rw [hline, hbud0]
            · rw [e2, e3]
              intro i hi
              rcases List.mem_cons.mp hi with rfl | h2
              · omega
              · exact hKept i h2
            · rw [e2]
              exact hMi
          · have hstep : reduceStep st line = st := by
              unfold reduceStep
              rw [if_neg h0, if_neg (by simp [hm]), if_neg (by simp [hs]),
                if_neg (by simp [hcr]), if_neg (by simp [hcd]), if_pos hcand,
                if_pos hcond, if_neg (by simp [hgood])]
            rw [hstep]
            exact ⟨hGood, hScan, hKept, hMi⟩
        · have hstep : reduceStep st line = st := by
            unfold reduceStep
            rw [if_neg h0, if_neg (by simp [hm]), if_neg (by simp [hs]),
              if_neg (by simp [hcr]), if_neg (by simp [hcd]), if_pos hcand,
              if_neg hcond]
          rw [hstep]
          exact ⟨hGood, hScan, hKept, hMi⟩
      · -- dropped line
        have hstep : reduceStep st line = st := by
          unfold reduceStep
          rw [if_neg h0, if_neg (by simp [hm]), if_neg (by simp [hs]),
            if_neg (by simp [hcr]), if_neg (by simp [hcd]), if_neg (by simp [hcand])]
          by_cases hend : jsStartsWith line "a=end-of-candidates" = true
          · rw [if_pos hend]
            have : ¬((st.mediaIndex ≥ 0 &&
                st.keptAnyCandidateForMedia.contains st.mediaIndex) = true) := by
              intro hc
              exact absurd hc (hrest hend hs hcr hcd hcand)
            rw [if_neg this]
          · rw [if_neg (by simp [hend])]
        rw [hstep]
        exact ⟨hGood, hScan, hKept, hMi⟩

theorem reduceFold_CandInv : ∀ (ls : List String) (st : ReduceState),
    CandInv st → CandInv (ls.foldl reduceStep st) := by
  intro ls
  induction ls with
  | nil => intro st h; exact h
  | cons l ls ih =>
    intro st h
    exact ih _ (reduceStep_CandInv st l h)

set_option maxRecDepth 40000 in
/-- C2: every candidate line kept by the reducer passes the filter (UDP
transport, host type, and a private-range IPv4 address or no IPv4-looking
token at all); at most one candidate line is kept per media section and
none before the first media header (candScan succeeds on every output);
and on the concrete two-candidate scenario - a host/UDP candidate at
10.0.0.5 and one at 8.8.8.8, in either order - the reducer keeps exactly
one candidate line, the one referencing 10.0.0.5. -/
theorem c2_candidate_filter :
    (∀ text l, l ∈ reduceLines (splitLines text) →
        jsStartsWith l "a=candidate:" = true → goodCandidate l = true) ∧
    (∀ text, (candScan (reduceLines (splitLines text)) 0).isSome = true) ∧
    reduceSDP "v=0\no=- 0 0 IN IP4 127.0.0.1\ns=-\nt=0 0\nm=audio 9 UDP/TLS/RTP/SAVPF 111 0\na=rtpmap:111 opus/48000/2\na=rtpmap:0 PCMU/8000\na=candidate:1 1 udp 2122 10.0.0.5 49203 typ host\na=candidate:2 1 udp 1686 8.8.8.8 49203 typ host" =
      "v=0\no=- 0 0 IN IP4 127.0.0.1\ns=-\nt=0 0\nm=audio 9 UDP/TLS/RTP/SAVPF 111 0\na=rtpmap:111 opus/48000/2\na=rtpmap:0 PCMU/8000\na=candidate:1 1 udp 2122 10.0.0.5 49203 typ host" ∧
    reduceSDP "v=0\no=- 0 0 IN IP4 127.0.0.1\ns=-\nt=0 0\nm=audio 9 UDP/TLS/RTP/SAVPF 111 0\na=rtpmap:111 opus/48000/2\na=rtpmap:0 PCMU/8000\na=candidate:2 1 udp 1686 8.8.8.8 49203 typ host\na=candidate:1 1 udp 2122 10.0.0.5 49203 typ host" =
      "v=0\no=- 0 0 IN IP4 127.0.0.1\ns=-\nt=0 0\nm=audio 9 UDP/TLS/RTP/SAVPF 111 0\na=rtpmap:111 opus/48000/2\na=rtpmap:0 PCMU/8000\na=candidate:1 1 udp 2122 10.0.0.5 49203 typ host" := by
  refine ⟨?_, ?_, by decide, by decide⟩
  · intro text l hl hc
    have hinv := reduceFold_CandInv (splitLines text) initReduceState CandInv_init
    exact hinv.1 l hl hc
  · intro text
    have hinv := reduceFold_CandInv (splitLines text) initReduceState CandInv_init
    rw [reduceLines, hinv.2.1]
    rfl

theorem c2_candidate_filter_witness :
    goodCandidate "a=candidate:1 1 udp 2122 10.0.0.5 49203 typ host" = true ∧
    (candScan (reduceLines (splitLines
      "m=audio 9 RTP 0\na=candidate:1 1 udp 2122 10.0.0.5 49203 typ host"))
      0).isSome = true :=
  ⟨c2_candidate_filter.1
      "m=audio 9 RTP 0\na=candidate:1 1 udp 2122 10.0.0.5 49203 typ host"
      "a=candidate:1 1 udp 2122 10.0.0.5 49203 typ host" (by decide) (by decide),
   c2_candidate_filter.2.1
      "m=audio 9 RTP 0\na=candidate:1 1 udp 2122 10.0.0.5 49203 typ host"⟩

theorem firstTruthy_eq_none_iff : ∀ cs : List String,
    firstTruthy cs = none ↔
      ∀ c ∈ cs, ∀ v, tryParse c = some v → v.truthy = false := by
  intro cs
  induction cs with
  | nil => simp [firstTruthy]
  | cons c cs ih =>
    constructor
    · intro h c2 hc2 v hv
      rcases List.mem_cons.mp hc2 with rfl | hmem
      · simp only [firstTruthy, hv] at h
        by_cases ht : v.truthy = true
        · rw [if_pos ht] at h
          exact absurd h (by simp)
        · simpa using ht
      · rcases he : tryParse c with _ | w
        · simp only [firstTruthy, he] at h
          exact (ih.mp h) c2 hmem v hv
        · simp only [firstTruthy, he] at h
          by_cases ht : w.truthy = true
          · rw [if_pos ht] at h
            exact absurd h (by simp)
          · rw [if_neg ht] at h
            exact (ih.mp h) c2 hmem v hv
    · intro h
      rcases he : tryParse c with _ | w
      · simp only [firstTruthy, he]
        exact ih.mpr (fun c2 h2 v hv => h c2 (List.mem_cons_of_mem _ h2) v hv)
      · simp only [firstTruthy, he]
        have hw : w.truthy = false := h c (List.mem_cons_self _ _) w he
        rw [if_neg (by simp [hw])]
        exact ih.mpr (fun c2 h2 v hv => h c2 (List.mem_cons_of_mem _ h2) v hv)

theorem firstTruthy_eq_some : ∀ (cs : List String) (v : Json),
    firstTruthy cs = some v →
      v.truthy = true ∧
      ∃ pre c post, cs = pre ++ c :: post ∧ tryParse c = some v ∧
        ∀ c2 ∈ pre, ∀ v2, tryParse c2 = some v2 → v2.truthy = false := by
  intro cs
  induction cs with
  | nil => intro v h; exact absurd h (by simp [firstTruthy])
  | cons c cs ih =>
    intro v h
    rcases he : tryParse c with _ | w
    · simp only [firstTruthy, he] at h
      obtain ⟨ht, pre, c1, post, hsplit, hc1, hpre⟩ := ih v h
      refine ⟨ht, c :: pre, c1, post, by rw [hsplit]; rfl, hc1, ?_⟩
      intro c2 hc2 v2 hv2
      rcases List.mem_cons.mp hc2 with rfl | hmem
      · rw [he] at hv2; exact absurd hv2 (by simp)
      · exact hpre c2 hmem v2 hv2
    · simp only [firstTruthy, he] at h
      by_cases ht : w.truthy = true
      · rw [if_pos ht] at h
        have hv : v = w := by
          have := h
          simp only [Option.some.injEq] at this
          exact this.symm
        subst hv
        exact ⟨ht, [], c, cs, rfl, he, by intro c2 hc2; simp at hc2⟩
      · rw [if_neg ht] at h
        obtain ⟨ht2, pre, c1, post, hsplit, hc1, hpre⟩ := ih v h
        refine ⟨ht2, c :: pre, c1, post, by rw [hsplit]; rfl, hc1, ?_⟩
        intro c2 hc2 v2 hv2
        rcases List.mem_cons.mp hc2 with rfl | hmem
        · rw [he] at hv2
          simp only [Option.some.injEq] at hv2
          subst hv2
          simpa using ht
        · exact hpre c2 hmem v2 hv2

/-- C3 counterexample: the decoder performs no validation of the type and
sdp fields - the JSON text of an object with neither field decodes to that
object, not to null (tryParse returns any truthy parse and parseSDPFromQR
passes it through). -/
theorem c3_validation_counterexample :
    parseSDPFromQR "\x7b\"x\":1\x7d" = some (Json.obj [("x", Json.num 1)]) ∧
    getFieldJ (Json.obj [("x", Json.num 1)]) "type" = none ∧
    getFieldJ (Json.obj [("x", Json.num 1)]) "sdp" = none := by
  refine ⟨by decide, rfl, rfl⟩

/-- C3 amended: parseSDPFromQR returns null exactly when no candidate, in
the fixed candidate order, parses to a truthy value; a non-null result is
the parse of the first candidate whose parse is truthy (every earlier
candidate either fails to parse or parses to a falsy value). No check of
the type or sdp fields is performed - any truthy parse is returned. -/
theorem c3_first_truthy_amended (s : String) :
    (parseSDPFromQR s = none ↔
      ∀ c ∈ qrCandidates s, ∀ v, tryParse c = some v → v.truthy = false) ∧
    (∀ v, parseSDPFromQR s = some v →
      v.truthy = true ∧
      ∃ pre c post, qrCandidates s = pre ++ c :: post ∧ tryParse c = some v ∧
        ∀ c2 ∈ pre, ∀ v2, tryParse c2 = some v2 → v2.truthy = false) := by
  constructor
  · exact firstTruthy_eq_none_iff (qrCandidates s)
  · intro v h
    exact firstTruthy_eq_some (qrCandidates s) v h

theorem c3_first_truthy_witness :
    (Json.obj [("t", Json.num 3)]).truthy = true ∧
    ∃ pre c post,
      qrCandidates "\x7b\"t\":3\x7d" = pre ++ c :: post ∧
      tryParse c = some (Json.obj [("t", Json.num 3)]) ∧
      ∀ c2 ∈ pre, ∀ v2, tryParse c2 = some v2 → v2.truthy = false :=
  (c3_first_truthy_amended "\x7b\"t\":3\x7d").2 (Json.obj [("t", Json.num 3)])
    (by decide)

theorem hasPrefixL_self_append : ∀ (l rest : List Char),
    hasPrefixL l (l ++ rest) = true := by
  intro l
  induction l with
  | nil => intro rest; rfl
  | cons c l ih => intro rest; simp [hasPrefixL, ih]

theorem replaceAllAux_skipk (p : Char) (ps rep : List Char) :
    ∀ (l rest : List Char),
      replaceAllAux p ps rep (l ++ rest) l.length = replaceAllAux p ps rep rest 0 := by
  intro l
  induction l with
  | nil => intro rest; rfl
  | cons c l ih =>
    intro rest
    simp only [List.cons_append, List.length_cons, replaceAllAux]
    exact ih rest

theorem replaceAllL_skip (p : Char) (ps rep : List Char) :
    ∀ (l rest : List Char), p ∉ l →
      replaceAllL p ps rep (l ++ rest) = l ++ replaceAllL p ps rep rest := by
  intro l
  induction l with
  | nil => intro rest h; rfl
  | cons c l ih =>
    intro rest h
    have hcp : ¬(p = c) := fun he => h (by rw [he]; exact List.mem_cons_self _ _)
    have hmem : p ∉ l := fun hm => h (List.mem_cons_of_mem _ hm)
    show replaceAllAux p ps rep ((c :: l) ++ rest) 0 = _
    rw [List.cons_append, replaceAllAux]
    rw [if_neg (by simp [hasPrefixL, hcp])]
    rw [show replaceAllAux p ps rep (l ++ rest) 0 = replaceAllL p ps rep (l ++ rest)
      from rfl]
    rw [ih rest hmem]
    rfl

theorem replaceAllL_nop (p : Char) (ps rep : List Char) (l : List Char) (h : p ∉ l) :
    replaceAllL p ps rep l = l := by
  have := replaceAllL_skip p ps rep l [] h
  rw [show replaceAllL p ps rep [] = [] from rfl] at this
  simpa using this

theorem replaceAllL_match (p : Char) (ps rep : List Char) (rest : List Char) :
    replaceAllL p ps rep (p :: (ps ++ rest)) = rep ++ replaceAllL p ps rep rest := by
  show replaceAllAux p ps rep (p :: (ps ++ rest)) 0 = _
  rw [replaceAllAux]
  rw [if_pos (by simp [hasPrefixL, hasPrefixL_self_append])]
  rw [replaceAllAux_skipk]
  rfl

/-- Both global replaces act as expected on a text made of backslash-free
segments around one escaped CRLF and one escaped LF: each escape becomes
the real line-break characters. -/
theorem unescapeSdp_segments (a b c : List Char)
    (ha : ('\\' : Char) ∉ a) (hb : ('\\' : Char) ∉ b) (hc : ('\\' : Char) ∉ c) :
    unescapeSdp (ofChars (a ++ ['\\', 'r', '\\', 'n'] ++ b ++ ['\\', 'n'] ++ c)) =
      ofChars (a ++ ['\r', '\n'] ++ b ++ ['\n'] ++ c) := by
  have hd : (ofChars (a ++ ['\\', 'r', '\\', 'n'] ++ b ++ ['\\', 'n'] ++ c)).data
      = a ++ ['\\', 'r', '\\', 'n'] ++ b ++ ['\\', 'n'] ++ c := rfl
  unfold unescapeSdp
  rw [hd]
  have h1 : replaceAllL '\\' ['r', '\\', 'n'] ['\r', '\n']
      (a ++ ['\\', 'r', '\\', 'n'] ++ b ++ ['\\', 'n'] ++ c)
      = a ++ ['\r', '\n'] ++ b ++ ['\\', 'n'] ++ c := by
    rw [show a ++ ['\\', 'r', '\\', 'n'] ++ b ++ ['\\', 'n'] ++ c
        = a ++ ('\\' :: (['r', '\\', 'n'] ++ (b ++ ['\\', 'n'] ++ c))) by
      simp [List.append_assoc]]
    rw [replaceAllL_skip _ _ _ a _ ha]
    rw [replaceAllL_match]
    have h2 : replaceAllL '\\' ['r', '\\', 'n'] ['\r', '\n'] (b ++ ['\\', 'n'] ++ c)
        = b ++ ['\\', 'n'] ++ c := by
      rw [List.append_assoc, replaceAllL_skip _ _ _ b _ hb]
      have h3 : replaceAllL '\\' ['r', '\\', 'n'] ['\r', '\n'] ('\\' :: 'n' :: c)
          = '\\' :: 'n' :: c := by
        show replaceAllAux '\\' ['r', '\\', 'n'] ['\r', '\n'] ('\\' :: 'n' :: c) 0 = _
        rw [replaceAllAux]
        rw [if_neg (by simp [hasPrefixL])]
        congr 1
        exact replaceAllL_nop _ _ _ _ (by simp [hc])
      simpa using h3
    rw [h2]
    simp [List.append_assoc]
  rw [h1]
  have h4 : replaceAllL '\\' ['n'] ['\n'] (a ++ ['\r', '\n'] ++ b ++ ['\\', 'n'] ++ c)
      = a ++ ['\r', '\n'] ++ b ++ ['\n'] ++ c := by
    have hfree : ('\\' : Char) ∉ a ++ ['\r', '\n'] ++ b := by
      simp [ha, hb]
    rw [show a ++ ['\r', '\n'] ++ b ++ ['\\', 'n'] ++ c
        = (a ++ ['\r', '\n'] ++ b) ++ ('\\' :: (['n'] ++ c)) by simp [List.append_assoc]]
    rw [replaceAllL_skip _ _ _ _ _ hfree]
    rw [replaceAllL_match]
    rw [replaceAllL_nop _ _ _ _ hc]
    simp [List.append_assoc]
  rw [h4]

/-- C4 counterexample: a successfully decoded text whose only escapes are
the two-character backslash-n sequences (no backslash-r-backslash-n) is
returned with the escapes intact - the unescape is gated on the presence
of the backslash-r-backslash-n sequence, so backslash-n alone is never
unescaped. -/
theorem c4_unescape_counterexample :
    parseSDPFromQR "\x7b\"type\":\"offer\",\"sdp\":\"a\\\\nb\"\x7d" =
      some (Json.obj [("type", Json.str "offer"), ("sdp", Json.str "a\\nb")]) ∧
    hasSubstrL ['\\', 'n'] ("a\\nb").data = true ∧
    ('\n' : Char) ∉ ("a\\nb").data := by
  refine ⟨by decide, by decide, by decide⟩

/-- C4 amended: the unescape runs only when the decoded text contains the
literal backslash-r-backslash-n sequence; when it runs, it rewrites both
escape kinds into real line-break characters (first conjunct: truthy parse
with a string sdp containing the sequence is returned with the sdp field
unescaped; second: without the sequence, the parse is returned verbatim,
even if backslash-n escapes remain; third: the unescape turns escaped CRLF
and escaped LF into the real characters; fourth: end to end, a token whose
sdp carries escaped CRLF decodes to a record with real line breaks). -/
theorem c4_unescape_amended :
    (∀ (p : Json) (s : String), p.truthy = true →
      getFieldJ p "sdp" = some (Json.str s) → hasSubstrL escRN s.data = true →
      lzPostProcess p = setFieldJ p "sdp" (Json.str (unescapeSdp s))) ∧
    (∀ (p : Json) (s : String), p.truthy = true →
      getFieldJ p "sdp" = some (Json.str s) → hasSubstrL escRN s.data = false →
      lzPostProcess p = p) ∧
    (∀ a b c : List Char, ('\\' : Char) ∉ a → ('\\' : Char) ∉ b →
      ('\\' : Char) ∉ c →
      unescapeSdp (ofChars (a ++ ['\\', 'r', '\\', 'n'] ++ b ++ ['\\', 'n'] ++ c)) =
        ofChars (a ++ ['\r', '\n'] ++ b ++ ['\n'] ++ c)) ∧
    parseSDPFromQR "\x7b\"type\":\"offer\",\"sdp\":\"a\\\\r\\\\nb\"\x7d" =
      some (Json.obj [("type", Json.str "offer"), ("sdp", Json.str "a\r\nb")]) := by
  refine ⟨?_, ?_, ?_, by decide⟩
  · intro p s htr hs hsub
    unfold lzPostProcess
    rw [if_pos htr]
    simp only [hs]
    rw [if_pos hsub]
  · intro p s htr hs hsub
    unfold lzPostProcess
    rw [if_pos htr]
    simp only [hs]
    rw [if_neg (by simp [hsub])]
  · exact unescapeSdp_segments

theorem c4_unescape_witness :
    lzPostProcess (Json.obj [("sdp", Json.str "x\\r\\ny")]) =
      setFieldJ (Json.obj [("sdp", Json.str "x\\r\\ny")]) "sdp"
        (Json.str (unescapeSdp "x\\r\\ny")) ∧
    unescapeSdp (ofChars (['x'] ++ ['\\', 'r', '\\', 'n'] ++ ['y'] ++
        ['\\', 'n'] ++ ['z'])) =
      ofChars (['x'] ++ ['\r', '\n'] ++ ['y'] ++ ['\n'] ++ ['z']) :=
  ⟨c4_unescape_amended.1 (Json.obj [("sdp", Json.str "x\\r\\ny")]) "x\\r\\ny"
      (by decide) (by decide) (by decide),
   c4_unescape_amended.2.2.1 ['x'] ['y'] ['z'] (by decide) (by decide) (by decide)⟩

/-! ## Fallback decode equivalence: transported tokens (claim C5) -/

theorem alphaChar_ascii : ∀ i, i < 64 → (alphaChar i).toNat < 128 := by decide

theorem hexCharUpper_hex : ∀ x, x < 16 → hexDigitVal (hexCharUpper x) = some x ∧
    isHexDigit (hexCharUpper x) = true ∧ isJsWs (hexCharUpper x) = false := by decide

theorem pct_char_facts : alphaIdx '%' = none ∧ isJsWs '%' = false ∧
    isB64SetChar '%' = false ∧ isUnreservedURI '%' = false := by decide

theorem space_char_facts : alphaIdx ' ' = none ∧ isB64SetChar ' ' = false := by decide

theorem percentEncode_id : ∀ l : List Char, (∀ c ∈ l, isUnreservedURI c = true) →
    percentEncode (ofChars l) = ofChars l := by
  intro l
  induction l with
  | nil => intro _; rfl
  | cons c cs ih =>
    intro h
    have hc := h c (by simp)
    have hcs := ih (fun x hx => h x (by simp [hx]))
    have hd : (percentEncode (ofChars (c :: cs))).data
        = (if isUnreservedURI c then [c]
           else (utf8EncodeChar c.toNat).flatMap pctHexPair)
          ++ (percentEncode (ofChars cs)).data := by
      simp [percentEncode, data_ofChars]
    have : (percentEncode (ofChars (c :: cs))).data = c :: cs := by
      rw [hd, if_pos hc, hcs, data_ofChars]
      rfl
    calc percentEncode (ofChars (c :: cs))
        = ofChars (percentEncode (ofChars (c :: cs))).data := (ofChars_data _).symm
      _ = ofChars (c :: cs) := by rw [this]

theorem pctStep_ne (c : Char) (rest : List Char) (h : ¬(c = '%')) :
    pctStep (c :: rest) = some (c, rest) := by
  simp [pctStep, h]

theorem pctStep_pct (h1 h2 : Char) (rest : List Char) (a b : Nat)
    (hx1 : hexDigitVal h1 = some a) (hx2 : hexDigitVal h2 = some b)
    (hlt : a * 16 + b < 128) :
    pctStep ('%' :: h1 :: h2 :: rest) = some (Char.ofNat (a * 16 + b), rest) := by
  simp [pctStep, pctByteAt, hx1, hx2, hlt]

theorem pctDecodeAux_step (f : Nat) (c : Char) (cs rest : List Char) (ch : Char)
    (h : pctStep (c :: cs) = some (ch, rest)) :
    pctDecodeAux (f + 1) (c :: cs) = (pctDecodeAux f rest).map (ch :: ·) := by
  simp [pctDecodeAux, h]

theorem pctDecodeAux_percentEncode : ∀ (l : List Char) (f : Nat),
    (∀ c ∈ l, c.toNat < 128 ∧ ¬(c = '%')) →
    ((percentEncode (ofChars l)).data).length ≤ f →
    pctDecodeAux f ((percentEncode (ofChars l)).data) = some l := by
  intro l
  induction l with
  | nil =>
    intro f _ _
    cases f with
    | zero => rfl
    | succ g => rfl
  | cons c cs ih =>
    intro f h hf
    obtain ⟨hlt, hne⟩ := h c (by simp)
    have hcs : ∀ x ∈ cs, x.toNat < 128 ∧ ¬(x = '%') := fun x hx => h x (by simp [hx])
    have hd : (percentEncode (ofChars (c :: cs))).data
        = (if isUnreservedURI c then [c]
           else (utf8EncodeChar c.toNat).flatMap pctHexPair)
          ++ (percentEncode (ofChars cs)).data := by
      simp [percentEncode, data_ofChars]
    by_cases hu : isUnreservedURI c = true
    · rw [hd, if_pos hu] at hf ⊢
      rw [List.singleton_append] at hf ⊢
      cases f with
      | zero => simp at hf
      | succ g =>
        rw [pctDecodeAux_step g c _ _ c (pctStep_ne c _ hne)]
        rw [ih g hcs (by rw [List.length_cons] at hf; omega)]
        rfl
    · have henc : (utf8EncodeChar c.toNat).flatMap pctHexPair
          = ['%', hexCharUpper (c.toNat / 16), hexCharUpper (c.toNat % 16)] := by
        have h1 : utf8EncodeChar c.toNat = [c.toNat] := by
          unfold utf8EncodeChar
          rw [if_pos hlt]
        rw [h1]
        simp [pctHexPair]
      rw [hd, if_neg hu, henc] at hf ⊢
      simp only [List.cons_append, List.nil_append] at hf ⊢
      cases f with
      | zero => simp at hf
      | succ g =>
        have hx1 := (hexCharUpper_hex (c.toNat / 16) (by omega)).1
        have hx2 := (hexCharUpper_hex (c.toNat % 16) (by omega)).1
        have hstep := pctStep_pct _ _ ((percentEncode (ofChars cs)).data) _ _ hx1 hx2
          (by omega)
        rw [pctDecodeAux_step g _ _ _ _ hstep]
        rw [ih g hcs (by simp only [List.length_cons] at hf; omega)]
        have hn : c.toNat / 16 * 16 + c.toNat % 16 = c.toNat := by omega
        rw [hn, Char.ofNat_toNat]
        rfl

theorem pctDecode_percentEncode (l : List Char)
    (h : ∀ c ∈ l, c.toNat < 128 ∧ ¬(c = '%')) :
    pctDecodeL ((percentEncode (ofChars l)).data) = some l :=
  pctDecodeAux_percentEncode l _ h (le_refl _)

theorem hasPctEscape_append : ∀ (a : List Char) (h1 h2 : Char) (rest : List Char),
    isHexDigit h1 = true → isHexDigit h2 = true →
    hasPctEscape (a ++ '%' :: h1 :: h2 :: rest) = true := by
  intro a
  induction a with
  | nil =>
    intro h1 h2 rest hh1 hh2
    have e : hasPctEscape ('%' :: h1 :: h2 :: rest)
        = ((decide (('%' : Char) = '%') && (isHexDigit h1 && isHexDigit h2)) ||
            hasPctEscape (h1 :: h2 :: rest)) := rfl
    rw [List.nil_append, e, hh1, hh2]
    simp
  | cons x a ih =>
    intro h1 h2 rest hh1 hh2
    have e : hasPctEscape (x :: (a ++ '%' :: h1 :: h2 :: rest))
        = ((decide (x = '%') &&
            (match a ++ '%' :: h1 :: h2 :: rest with
             | c1 :: c2 :: _ => isHexDigit c1 && isHexDigit c2
             | _ => false)) ||
            hasPctEscape (a ++ '%' :: h1 :: h2 :: rest)) := rfl
    rw [List.cons_append, e, ih h1 h2 rest hh1 hh2]
    simp

theorem decVar_bad : ∀ (l : List Char) (c : Char), c ∈ l → alphaIdx c = none →
    decVar l = none ∨ ∃ n r, decVar l = some (n, r) ∧ c ∈ r := by
  intro l
  induction l with
  | nil => intro c hc; simp at hc
  | cons x xs ih =>
    intro c hc hidx
    rcases hx : alphaIdx x with _ | d
    · left
      simp [decVar, hx]
    · have hcx : ¬(c = x) := fun he => by
        rw [he, hx] at hidx
        exact absurd hidx (by simp)
      have hcm : c ∈ xs := by
        rcases List.mem_cons.mp hc with rfl | hm
        · exact absurd rfl hcx
        · exact hm
      by_cases hd : d ≥ 32
      · right
        exact ⟨d - 32, xs, by simp [decVar, hx, hd], hcm⟩
      · rcases ih c hcm hidx with hnone | ⟨n, r, hr, hcr⟩
        · left
          simp [decVar, hx, hd, hnone]
        · right
          exact ⟨d + 32 * n, r, by simp [decVar, hx, hd, hr], hcr⟩

theorem lzDecodeAux_bad : ∀ (f : Nat) (l : List Char) (c : Char), c ∈ l →
    alphaIdx c = none → lzDecodeAux f l = none := by
  intro f
  induction f with
  | zero =>
    intro l c hc _
    cases l with
    | nil => simp at hc
    | cons x xs => rfl
  | succ g ih =>
    intro l c hc hidx
    cases l with
    | nil => simp at hc
    | cons x xs =>
      rcases decVar_bad (x :: xs) c hc hidx with hnone | ⟨n, r, hr, hcr⟩
      · simp [lzDecodeAux, hnone]
      · simp [lzDecodeAux, hr, ih r c hcr hidx]

theorem decompress_bad (s : String) (c : Char) (hc : c ∈ s.data)
    (hidx : alphaIdx c = none) : decompressFromBase64 s = none := by
  simp [decompressFromBase64, lzDecodeAux_bad _ _ c hc hidx]


theorem pVal_head_fail (f : Nat) (l : List Char) (c : Char) (rest : List Char)
    (hskip : skipWsJ l = c :: rest)
    (hn : ¬(c = 'n')) (ht2 : ¬(c = 't')) (hf : ¬(c = 'f')) (hq : ¬(c = '"'))
    (hbr : ¬(c = '[')) (hob : ¬(c = '{')) (hdg : c.isDigit = false) :
    pVal f l = none := by
  cases f with
  | zero => rw [pVal.eq_def]
  | succ g =>
    rw [pVal.eq_def]
    simp only [hskip]
    rw [if_neg hn, if_neg ht2, if_neg hf, if_neg hq, if_neg hbr, if_neg hob,
      if_neg (by simp [hdg])]

theorem jsonParse_head_fail (s : String) (c : Char) (rest : List Char)
    (hskip : skipWsJ s.data = c :: rest)
    (hn : ¬(c = 'n')) (ht2 : ¬(c = 't')) (hf : ¬(c = 'f')) (hq : ¬(c = '"'))
    (hbr : ¬(c = '[')) (hob : ¬(c = '{')) (hdg : c.isDigit = false) :
    jsonParse s = none := by
  simp only [jsonParse,
    pVal_head_fail _ s.data c rest hskip hn ht2 hf hq hbr hob hdg]

theorem firstTruthy_cons_none (c : String) (cs : List String)
    (h : tryParse c = none) : firstTruthy (c :: cs) = firstTruthy cs := by
  have e : firstTruthy (c :: cs) =
      (match tryParse c with
       | some w => if w.truthy then some w else firstTruthy cs
       | none => firstTruthy cs) := rfl
  rw [e, h]

theorem notWs_imp_notJsonWs (c : Char) (h : isJsWs c = false) :
    (c = ' ' || c = '\t' || c = '\n' || c = '\r') = false := by
  simp only [isJsWs, Bool.or_eq_false_iff] at h
  simp only [Bool.or_eq_false_iff]
  exact ⟨⟨⟨h.1.1.1.1.1, h.1.1.1.1.2⟩, h.1.1.1.2⟩, h.1.1.2⟩

theorem compress_chars (s : String) :
    ∀ c ∈ (compressToBase64 s).data, ∃ i, i < 64 ∧ c = alphaChar i := by
  intro c hc
  have hmem : c ∈ lzEncodeChars s.data := by
    simpa [compressToBase64, data_ofChars] using hc
  exact lzEncodeChars_mem _ c hmem

theorem compress_chars_ascii (s : String) :
    ∀ c ∈ (compressToBase64 s).data, c.toNat < 128 ∧ ¬(c = '%') := by
  intro c hc
  obtain ⟨i, hi, rfl⟩ := compress_chars s c hc
  refine ⟨alphaChar_ascii i hi, fun he => ?_⟩
  have := (alphaChar_props i hi).2.1
  rw [he] at this
  simp at this

theorem compress_head (fs : List (String × Json)) :
    ∃ rest, (compressToBase64 (Json.stringify (Json.obj fs))).data
      = alphaChar 27 :: alphaChar 35 :: rest := by
  have hsv : (Json.stringify (Json.obj fs)).data = '{' :: (svFields fs ++ ['}']) := rfl
  have hlz : (compressToBase64 (Json.stringify (Json.obj fs))).data
      = lzEncodeChars ((Json.stringify (Json.obj fs)).data) := rfl
  have he : lzEncodeChars ('{' :: (svFields fs ++ ['}']))
      = encVar ('{'.toNat) ++ lzEncodeChars (svFields fs ++ ['}']) := rfl
  have h3 : encVar 3 = [alphaChar 35] := by
    rw [encVar]
    norm_num
  have h123 : encVar 123 = [alphaChar 27, alphaChar 35] := by
    rw [encVar]
    rw [dif_neg (by omega)]
    norm_num [h3]
  refine ⟨lzEncodeChars (svFields fs ++ ['}']), ?_⟩
  rw [hlz, hsv, he, show ('{'.toNat) = 123 from rfl, h123]
  rfl

theorem percentEncode_data (s : String) :
    (percentEncode s).data = s.data.flatMap (fun c =>
      if isUnreservedURI c then [c]
      else (utf8EncodeChar c.toNat).flatMap pctHexPair) := rfl

theorem percentEncode_chars (s : String) (h : ∀ c ∈ s.data, c.toNat < 128) :
    ∀ x ∈ (percentEncode s).data,
      x ∈ s.data ∨ x = '%' ∨ ∃ y, y < 16 ∧ x = hexCharUpper y := by
  intro x hx
  rw [percentEncode_data] at hx
  rcases List.mem_flatMap.mp hx with ⟨c, hc, hm⟩
  by_cases hu : isUnreservedURI c = true
  · rw [if_pos hu] at hm
    simp only [List.mem_singleton] at hm
    subst hm
    exact Or.inl hc
  · rw [if_neg hu] at hm
    have henc : utf8EncodeChar c.toNat = [c.toNat] := by
      unfold utf8EncodeChar
      rw [if_pos (h c hc)]
    rw [henc] at hm
    have hm2 : x ∈ pctHexPair c.toNat := by simpa using hm
    simp only [pctHexPair, List.mem_cons, List.mem_singleton] at hm2
    rcases hm2 with rfl | rfl | (rfl | hf)
    · exact Or.inr (Or.inl rfl)
    · exact Or.inr (Or.inr ⟨c.toNat / 16, by have := h c hc; omega, rfl⟩)
    · exact Or.inr (Or.inr ⟨c.toNat % 16, by omega, rfl⟩)
    · simp at hf

theorem parseSDP_percent_of (payload : Json) (sdp : String)
    (hget : getFieldJ payload "sdp" = some (Json.str sdp))
    (htr : payload.truthy = true)
    (hesc : hasSubstrL escRN sdp.data = false)
    (c0 : Char) (rest : List Char)
    (hhead : (compressToBase64 (Json.stringify payload)).data = c0 :: rest)
    (hc0 : isUnreservedURI c0 = true) (hc0n : ¬(c0 = 'n')) (hc0t : ¬(c0 = 't'))
    (hc0f : ¬(c0 = 'f')) (hc0q : ¬(c0 = '"')) (hc0b : ¬(c0 = '['))
    (hc0o : ¬(c0 = '{')) (hc0d : c0.isDigit = false) :
    parseSDPFromQR (percentEncode (compressToBase64 (Json.stringify payload))) =
      some payload := by
  have hascii := compress_chars_ascii (Json.stringify payload)
  by_cases hall : ∀ c ∈ (compressToBase64 (Json.stringify payload)).data,
      isUnreservedURI c = true
  · have hpe : percentEncode (compressToBase64 (Json.stringify payload))
        = compressToBase64 (Json.stringify payload) := by
      have := percentEncode_id (compressToBase64 (Json.stringify payload)).data hall
      rwa [ofChars_data] at this
    rw [hpe]
    exact parseSDP_encoded payload sdp hget htr hesc
  · push_neg at hall
    obtain ⟨c1, hc1mem, hc1u⟩ := hall
    obtain ⟨l1, l2, hsplit⟩ := List.append_of_mem hc1mem
    have hc1ascii := hascii c1 hc1mem
    have henc1 : (if isUnreservedURI c1 then [c1]
        else (utf8EncodeChar c1.toNat).flatMap pctHexPair)
        = '%' :: hexCharUpper (c1.toNat / 16) :: [hexCharUpper (c1.toNat % 16)] := by
      rw [if_neg hc1u]
      have h1 : utf8EncodeChar c1.toNat = [c1.toNat] := by
        unfold utf8EncodeChar
        rw [if_pos hc1ascii.1]
      rw [h1]
      simp [pctHexPair]
    have hudata : (percentEncode (compressToBase64 (Json.stringify payload))).data
        = (l1.flatMap (fun c =>
            if isUnreservedURI c then [c]
            else (utf8EncodeChar c.toNat).flatMap pctHexPair))
          ++ '%' :: hexCharUpper (c1.toNat / 16) :: hexCharUpper (c1.toNat % 16) ::
            (l2.flatMap (fun c =>
              if isUnreservedURI c then [c]
              else (utf8EncodeChar c.toNat).flatMap pctHexPair)) := by
      rw [percentEncode_data, hsplit]
      rw [List.flatMap_append, List.flatMap_cons, henc1]
      simp [List.append_assoc]
    have hpm : '%' ∈ (percentEncode (compressToBase64 (Json.stringify payload))).data := by
      rw [hudata]
      simp
    have hnws : ∀ c ∈ (percentEncode (compressToBase64 (Json.stringify payload))).data,
        isJsWs c = false := by
      intro c hc
      rcases percentEncode_chars _ (fun x hx => (hascii x hx).1) c hc with hm | rfl | ⟨y, hy, rfl⟩
      · exact compress_chars_not_ws _ c hm
      · exact pct_char_facts.2.1
      · exact (hexCharUpper_hex y hy).2.2
    have htrim : jsTrim (percentEncode (compressToBase64 (Json.stringify payload)))
        = percentEncode (compressToBase64 (Json.stringify payload)) :=
      jsTrim_id_of_not_ws _ hnws
    have hpct : hasPctEscape
        (percentEncode (compressToBase64 (Json.stringify payload))).data = true := by
      rw [hudata]
      exact hasPctEscape_append _ _ _ _
        (hexCharUpper_hex (c1.toNat / 16) (by omega)).2.1
        (hexCharUpper_hex (c1.toNat % 16) (by omega)).2.1
    have hdecode : pctDecodeL
        (percentEncode (compressToBase64 (Json.stringify payload))).data
        = some (compressToBase64 (Json.stringify payload)).data := by
      have := pctDecode_percentEncode (compressToBase64 (Json.stringify payload)).data
        hascii
      rwa [ofChars_data] at this
    have hnum : matchNumSeqL
        (percentEncode (compressToBase64 (Json.stringify payload))).data = false :=
      matchNumSeqL_no_ws _ hnws
    have hb64 : (isB64Charset
        (percentEncode (compressToBase64 (Json.stringify payload))).data) = false := by
      have hall2 : (percentEncode (compressToBase64 (Json.stringify payload))).data.all
          isB64SetChar = false := by
        rw [List.all_eq_false]
        exact ⟨'%', hpm, by simp [pct_char_facts.2.2.1]⟩
      simp [isB64Charset, hall2]
    have hcand : qrCandidates (percentEncode (compressToBase64 (Json.stringify payload)))
        = [percentEncode (compressToBase64 (Json.stringify payload)),
           compressToBase64 (Json.stringify payload)] := by
      simp only [qrCandidates, htrim, hnum, hpct, hb64, hdecode]
      simp [ofChars_data]
    have hdc : decompressFromBase64
        (percentEncode (compressToBase64 (Json.stringify payload))) = none :=
      decompress_bad _ '%' hpm pct_char_facts.1
    have hc0mem : c0 ∈ (compressToBase64 (Json.stringify payload)).data := by
      rw [hhead]
      simp
    have huhead : (percentEncode (compressToBase64 (Json.stringify payload))).data
        = c0 :: (rest.flatMap (fun c =>
            if isUnreservedURI c then [c]
            else (utf8EncodeChar c.toNat).flatMap pctHexPair)) := by
      rw [percentEncode_data, hhead, List.flatMap_cons, if_pos hc0]
      rfl
    have hskip : skipWsJ
        (percentEncode (compressToBase64 (Json.stringify payload))).data
        = c0 :: (rest.flatMap (fun c =>
            if isUnreservedURI c then [c]
            else (utf8EncodeChar c.toNat).flatMap pctHexPair)) := by
      rw [huhead]
      exact skipWsJ_not_ws c0 _ (notWs_imp_notJsonWs c0 (compress_chars_not_ws _ c0 hc0mem))
    have hjson : jsonParse (percentEncode (compressToBase64 (Json.stringify payload)))
        = none :=
      jsonParse_head_fail _ c0 _ hskip hc0n hc0t hc0f hc0q hc0b hc0o hc0d
    have htp : tryParse (percentEncode (compressToBase64 (Json.stringify payload)))
        = none := by
      simp only [tryParse, hdc, directParse, hjson]
    rw [parseSDPFromQR, hcand, firstTruthy_cons_none _ _ htp]
    exact firstTruthy_cons_truthy _ _ payload
      (tryParse_encoded payload sdp hget htr hesc) htr

theorem isJsWs_digit (c : Char) (h : c.isDigit = true) : isJsWs c = false := by
  simp only [Char.isDigit] at h
  simp only [Bool.and_eq_true, decide_eq_true_eq] at h
  simp only [isJsWs, Bool.or_eq_false_iff, decide_eq_false_iff_not]
  refine ⟨⟨⟨⟨⟨?_, ?_⟩, ?_⟩, ?_⟩, ?_⟩, ?_⟩ <;> rintro rfl <;> revert h <;> decide

theorem digit_ne_starters (c : Char) (h : c.isDigit = true) :
    ¬(c = 'n') ∧ ¬(c = 't') ∧ ¬(c = 'f') ∧ ¬(c = '"') ∧ ¬(c = '[') ∧ ¬(c = '{') := by
  refine ⟨?_, ?_, ?_, ?_, ?_, ?_⟩ <;> rintro rfl <;> revert h <;> decide

theorem natDigits_head (n : Nat) :
    ∃ c cs, natDigits n = c :: cs ∧ c.isDigit = true := by
  rcases hc : natDigits n with _ | ⟨c, cs⟩
  · exact absurd hc (natDigits_ne_nil n)
  · refine ⟨c, cs, rfl, ?_⟩
    have hall := natDigits_all_digit n
    rw [hc] at hall
    simp only [List.all_cons, Bool.and_eq_true] at hall
    exact hall.1

theorem natDigits_mem_digit (n : Nat) : ∀ c ∈ natDigits n, c.isDigit = true := by
  intro c hc
  have hall := natDigits_all_digit n
  rw [List.all_eq_true] at hall
  exact hall c hc

theorem takeWhile_all {p : Char → Bool} :
    ∀ l : List Char, (∀ c ∈ l, p c = true) → l.takeWhile p = l := by
  intro l
  induction l with
  | nil => intro _; rfl
  | cons c cs ih =>
    intro h
    simp [List.takeWhile_cons, h c (by simp), ih (fun x hx => h x (by simp [hx]))]

theorem dropWhile_all {p : Char → Bool} :
    ∀ l : List Char, (∀ c ∈ l, p c = true) → l.dropWhile p = [] := by
  intro l
  induction l with
  | nil => intro _; rfl
  | cons c cs ih =>
    intro h
    simp [List.dropWhile_cons, h c (by simp), ih (fun x hx => h x (by simp [hx]))]

theorem takeWhile_upTo {p : Char → Bool} :
    ∀ (d : List Char) (e : Char) (rest : List Char),
      (∀ c ∈ d, p c = true) → p e = false →
      (d ++ e :: rest).takeWhile p = d ∧ (d ++ e :: rest).dropWhile p = e :: rest := by
  intro d
  induction d with
  | nil =>
    intro e rest _ he
    simp [List.takeWhile_cons, List.dropWhile_cons, he]
  | cons c d ih =>
    intro e rest h he
    have hc := h c (by simp)
    obtain ⟨h1, h2⟩ := ih e rest (fun x hx => h x (by simp [hx])) he
    constructor
    · simp [List.takeWhile_cons, hc, h1]
    · simp [List.dropWhile_cons, hc, h2]

theorem takeDigitsRun_all : ∀ d : List Char, (∀ c ∈ d, c.isDigit = true) →
    takeDigitsRun d = (d, []) := by
  intro d
  induction d with
  | nil => intro _; rfl
  | cons c cs ih =>
    intro h
    simp only [takeDigitsRun, h c (by simp), if_true]
    rw [ih (fun x hx => h x (by simp [hx]))]

theorem takeDigitsRun_digitsFirst :
    ∀ (d : List Char) (e : Char) (rest : List Char),
      (∀ c ∈ d, c.isDigit = true) → e.isDigit = false →
      takeDigitsRun (d ++ e :: rest) = (d, e :: rest) := by
  intro d
  induction d with
  | nil =>
    intro e rest _ he
    simp [takeDigitsRun, he]
  | cons c d ih =>
    intro e rest h he
    simp only [List.cons_append, takeDigitsRun, h c (by simp), if_true,
      List.append_eq, ih e rest (fun x hx => h x (by simp [hx])) he]

theorem byteSeqL_cons (b b2 : Nat) (bs : List Nat) :
    byteSeqL (b :: b2 :: bs) = natDigits b ++ ' ' :: byteSeqL (b2 :: bs) := rfl

theorem byteSeqL_head : ∀ (bs : List Nat) (b : Nat),
    ∃ c cs, byteSeqL (b :: bs) = c :: cs ∧ c.isDigit = true := by
  intro bs b
  obtain ⟨c, cs, hc, hcd⟩ := natDigits_head b
  cases bs with
  | nil => exact ⟨c, cs, by rw [show byteSeqL [b] = natDigits b from rfl, hc], hcd⟩
  | cons b2 bs =>
    refine ⟨c, cs ++ ' ' :: byteSeqL (b2 :: bs), ?_, hcd⟩
    rw [byteSeqL_cons, hc]
    rfl

theorem byteSeqL_last : ∀ (bs : List Nat) (b : Nat),
    ∃ init c, byteSeqL (b :: bs) = init ++ [c] ∧ c.isDigit = true := by
  intro bs
  induction bs with
  | nil =>
    intro b
    have hne := natDigits_ne_nil b
    refine ⟨(natDigits b).dropLast, (natDigits b).getLast hne, ?_, ?_⟩
    · rw [show byteSeqL [b] = natDigits b from rfl]
      exact (List.dropLast_append_getLast hne).symm
    · exact natDigits_mem_digit b _ (List.getLast_mem hne)
  | cons b2 bs ih =>
    intro b
    obtain ⟨init, c, hic, hcd⟩ := ih b2
    refine ⟨natDigits b ++ ' ' :: init, c, ?_, hcd⟩
    rw [byteSeqL_cons, hic]
    simp

theorem byteSeqL_chars : ∀ bs : List Nat, ∀ c ∈ byteSeqL bs,
    c.isDigit = true ∨ c = ' ' := by
  intro bs
  induction bs with
  | nil => intro c hc; simp [byteSeqL] at hc
  | cons b bs ih =>
    intro c hc
    cases bs with
    | nil =>
      rw [show byteSeqL [b] = natDigits b from rfl] at hc
      exact Or.inl (natDigits_mem_digit b c hc)
    | cons b2 bs2 =>
      rw [byteSeqL_cons] at hc
      rcases List.mem_append.mp hc with hm | hm
      · exact Or.inl (natDigits_mem_digit b c hm)
      · rcases List.mem_cons.mp hm with rfl | hm2
        · exact Or.inr rfl
        · exact ih c hm2

theorem jsTrimL_ends (l : List Char) (c0 : Char) (t : List Char) (hl : l = c0 :: t)
    (h0 : isJsWs c0 = false) (init : List Char) (c1 : Char) (hr : l = init ++ [c1])
    (h1 : isJsWs c1 = false) : jsTrimL l = l := by
  unfold jsTrimL
  have hd : l.dropWhile isJsWs = l := by
    rw [hl]
    simp [List.dropWhile_cons, h0]
  rw [hd]
  have hrev : l.reverse.dropWhile isJsWs = l.reverse := by
    rw [hr]
    simp [List.reverse_append, List.dropWhile_cons, h1]
  rw [hrev, List.reverse_reverse]

theorem splitWsGo_byteSeq : ∀ (bs : List Nat) (b : Nat) (f : Nat),
    (byteSeqL (b :: bs)).length ≤ f →
    splitWsGo f (byteSeqL (b :: bs)) = (b :: bs).map (fun v => ofChars (natDigits v)) := by
  intro bs
  induction bs with
  | nil =>
    intro b f hf
    obtain ⟨c, cs, hc, hcd⟩ := natDigits_head b
    have hb1 : byteSeqL [b] = natDigits b := rfl
    rw [hb1] at hf ⊢
    rw [hc] at hf ⊢
    cases f with
    | zero => simp at hf
    | succ g =>
      simp only [splitWsGo, List.span_eq_take_drop]
      have hall : ∀ x ∈ c :: cs, (!isJsWs x) = true := by
        intro x hx
        have hxd : x.isDigit = true := natDigits_mem_digit b x (by rw [hc]; exact hx)
        simp [isJsWs_digit x hxd]
      rw [takeWhile_all _ hall, dropWhile_all _ hall]
      simp [hc]
  | cons b2 bs ih =>
    intro b f hf
    obtain ⟨c, ds, hc, hcd⟩ := natDigits_head b
    obtain ⟨c2, cs2, hc2, hc2d⟩ := byteSeqL_head bs b2
    have hb : byteSeqL (b :: b2 :: bs) = c :: (ds ++ ' ' :: byteSeqL (b2 :: bs)) := by
      rw [byteSeqL_cons, hc]
      rfl
    rw [hb] at hf ⊢
    cases f with
    | zero => simp at hf
    | succ g =>
      simp only [splitWsGo, List.span_eq_take_drop]
      have hall : ∀ x ∈ c :: ds, (fun x => !isJsWs x) x = true := by
        intro x hx
        have hxd : x.isDigit = true := natDigits_mem_digit b x (by rw [hc]; exact hx)
        simp [isJsWs_digit x hxd]
      have hsp : (fun x => !isJsWs x) ' ' = false := by decide
      have hpre := takeWhile_upTo (c :: ds) ' ' (byteSeqL (b2 :: bs)) hall hsp
      rw [show (c :: (ds ++ ' ' :: byteSeqL (b2 :: bs)))
          = ((c :: ds) ++ ' ' :: byteSeqL (b2 :: bs)) from rfl]
      rw [hpre.1, hpre.2]
      have hdw : (' ' :: byteSeqL (b2 :: bs)).dropWhile isJsWs = byteSeqL (b2 :: bs) := by
        rw [List.dropWhile_cons, if_pos (by decide)]
        rw [hc2, List.dropWhile_cons, if_neg (by simp [isJsWs_digit c2 hc2d])]
      rw [hdw]
      have hfl : (byteSeqL (b2 :: bs)).length ≤ g := by
        simp only [List.length_cons, List.length_append] at hf
        omega
      rw [ih b2 g hfl]
      simp [hc]

theorem splitWsRuns_byteSeq (bs : List Nat) (b : Nat) :
    splitWsRuns (byteSeqL (b :: bs)) = (b :: bs).map (fun v => ofChars (natDigits v)) := by
  obtain ⟨c, cs, hc, hcd⟩ := byteSeqL_head bs b
  simp only [splitWsRuns.eq_def, hc]
  rw [if_neg (by simp [isJsWs_digit c hcd])]
  rw [← hc]
  exact splitWsGo_byteSeq bs b _ (by omega)

theorem jsNumber_natDigits (v : Nat) : jsNumber (ofChars (natDigits v)) = some v := by
  rw [jsNumber, data_ofChars, if_pos (natDigits_all_digit v), natDigits_val]

theorem values_byteSeq : ∀ bs : List Nat,
    ((bs.map (fun v => ofChars (natDigits v))).map jsNumber).filterMap id = bs := by
  intro bs
  induction bs with
  | nil => rfl
  | cons b bs ih =>
    simp only [List.map_cons, jsNumber_natDigits, List.filterMap_cons, id]
    rw [ih]

theorem utf8ReplaceAux_ascii : ∀ (f : Nat) (bs : List Nat), bs.length ≤ f →
    (∀ b ∈ bs, b < 128) → utf8DecodeReplaceAux f bs = bs.map Char.ofNat := by
  intro f
  induction f with
  | zero =>
    intro bs hf _
    cases bs with
    | nil => rfl
    | cons b bs => simp at hf
  | succ g ih =>
    intro bs hf h
    cases bs with
    | nil => rfl
    | cons b bs =>
      have hstep : utf8Step b bs = some (Char.ofNat b, 0) := by
        unfold utf8Step
        rw [if_pos (h b (by simp))]
      simp only [utf8DecodeReplaceAux, hstep, List.drop_zero]
      rw [ih bs (by simp at hf; omega) (fun x hx => h x (by simp [hx]))]
      rfl

theorem utf8Replace_ascii (bs : List Nat) (h : ∀ b ∈ bs, b < 128) :
    utf8DecodeReplace bs = bs.map Char.ofNat :=
  utf8ReplaceAux_ascii _ _ (le_refl _) h

theorem decodeNumericBytes_byteSeq (bs : List Nat) (b : Nat)
    (h : ∀ x ∈ b :: bs, x < 128) :
    decodeNumericBytes (ofChars (byteSeqL (b :: bs)))
      = some (ofChars ((b :: bs).map Char.ofNat)) := by
  simp only [decodeNumericBytes, data_ofChars, splitWsRuns_byteSeq, values_byteSeq]
  rw [if_neg (by
    simp
    constructor
    · have := h b (by simp)
      omega
    · intro x hx
      have := h x (by simp [hx])
      omega)]
  rw [utf8Replace_ascii _ h]

theorem matchGroupsAux_byteSeq : ∀ (bs : List Nat) (b : Nat) (f : Nat),
    (byteSeqL (b :: bs)).length + 1 ≤ f →
    matchGroupsAux f (' ' :: byteSeqL (b :: bs)) = true := by
  intro bs
  induction bs with
  | nil =>
    intro b f hf
    obtain ⟨c, cs, hc, hcd⟩ := natDigits_head b
    have hb1 : byteSeqL [b] = natDigits b := rfl
    rw [hb1] at hf ⊢
    cases f with
    | zero => simp at hf
    | succ g =>
      rw [matchGroupsAux]
      have htw : (' ' :: natDigits b).takeWhile isJsWs = [' '] := by
        rw [List.takeWhile_cons, if_pos (by decide), hc, List.takeWhile_cons,
          if_neg (by simp [isJsWs_digit c hcd])]
      have hdw : (' ' :: natDigits b).dropWhile isJsWs = natDigits b := by
        rw [List.dropWhile_cons, if_pos (by decide), hc, List.dropWhile_cons,
          if_neg (by simp [isJsWs_digit c hcd])]
      rw [htw, hdw]
      rw [if_neg (by simp)]
      rw [takeDigitsRun_all (natDigits b) (natDigits_mem_digit b)]
      simp [hc]
  | cons b2 bs ih =>
    intro b f hf
    obtain ⟨c, ds, hc, hcd⟩ := natDigits_head b
    cases f with
    | zero => simp at hf
    | succ g =>
      rw [matchGroupsAux]
      rw [byteSeqL_cons]
      have htw : (' ' :: (natDigits b ++ ' ' :: byteSeqL (b2 :: bs))).takeWhile isJsWs
          = [' '] := by
        rw [List.takeWhile_cons, if_pos (by decide), hc, List.cons_append,
          List.takeWhile_cons, if_neg (by simp [isJsWs_digit c hcd])]
      have hdw : (' ' :: (natDigits b ++ ' ' :: byteSeqL (b2 :: bs))).dropWhile isJsWs
          = natDigits b ++ ' ' :: byteSeqL (b2 :: bs) := by
        rw [List.dropWhile_cons, if_pos (by decide), hc, List.cons_append,
          List.dropWhile_cons, if_neg (by simp [isJsWs_digit c hcd])]
      rw [htw, hdw]
      rw [if_neg (by simp)]
      rw [takeDigitsRun_digitsFirst (natDigits b) ' ' _ (natDigits_mem_digit b) (by decide)]
      have hrec := ih b2 g (by
        rw [byteSeqL_cons] at hf
        have hne : (natDigits b).length ≥ 1 := by
          rw [hc]
          simp
        simp only [List.length_cons, List.length_append] at hf ⊢
        omega)
      simp [hrec, hc]

theorem matchNumSeqL_byteSeq (bs : List Nat) (b b2 : Nat) :
    matchNumSeqL (byteSeqL (b :: b2 :: bs)) = true := by
  rw [matchNumSeqL, byteSeqL_cons]
  rw [takeDigitsRun_digitsFirst (natDigits b) ' ' _ (natDigits_mem_digit b) (by decide)]
  obtain ⟨c, cs, hc, _⟩ := natDigits_head b
  have hm := matchGroupsAux_byteSeq bs b2 ((byteSeqL (b2 :: bs)).length + 2)
    (by omega)
  simp only [List.length_cons]
  simp [hm, hc]

theorem flatMap_utf8_ascii : ∀ l : List Char, (∀ c ∈ l, c.toNat < 128) →
    l.flatMap (fun c => utf8EncodeChar c.toNat) = l.map Char.toNat := by
  intro l
  induction l with
  | nil => intro _; rfl
  | cons c cs ih =>
    intro h
    have henc : utf8EncodeChar c.toNat = [c.toNat] := by
      unfold utf8EncodeChar
      rw [if_pos (h c (by simp))]
    rw [List.flatMap_cons, henc, ih (fun x hx => h x (by simp [hx]))]
    rfl

theorem utf8Bytes_ascii (s : String) (h : ∀ c ∈ s.data, c.toNat < 128) :
    utf8Bytes s = s.data.map Char.toNat :=
  flatMap_utf8_ascii s.data h

theorem jsonParse_two_runs (s : String) (c0 : Char) (d : List Char) (c1 : Char)
    (t : List Char)
    (hd : s.data = c0 :: (d ++ ' ' :: c1 :: t))
    (hdall : ∀ c ∈ c0 :: d, c.isDigit = true)
    (hc1 : c1.isDigit = true) :
    jsonParse s = none := by
  have hc0d := hdall c0 (by simp)
  obtain ⟨hn, ht2, hf, hq, hbr, hob⟩ := digit_ne_starters c0 hc0d
  have hskip : skipWsJ s.data = c0 :: (d ++ ' ' :: c1 :: t) := by
    rw [hd]
    exact skipWsJ_not_ws c0 _ (jsonWs_of_digit c0 hc0d)
  have hF : 3 * s.data.length + 3 = (3 * s.data.length + 2) + 1 := rfl
  have hp : pVal (3 * s.data.length + 3) s.data
      = some (Json.num (digitsValL (c0 :: d)), ' ' :: c1 :: t) := by
    rw [hF, pVal.eq_def]
    simp only [hskip]
    rw [if_neg hn, if_neg ht2, if_neg hf, if_neg hq, if_neg hbr, if_neg hob,
      if_pos hc0d]
    rw [show c0 :: (d ++ ' ' :: c1 :: t) = (c0 :: d) ++ ' ' :: c1 :: t from rfl]
    rw [takeDigitsRun_digitsFirst (c0 :: d) ' ' (c1 :: t) hdall (by decide)]
  simp only [jsonParse, hp]
  have hsk2 : skipWsJ (' ' :: c1 :: t) = c1 :: t := by
    simp only [skipWsJ, List.dropWhile_cons]
    rw [if_pos (by decide), if_neg (by simp [jsonWs_of_digit c1 hc1])]
  rw [hsk2]
  rw [if_neg (by simp)]

theorem parseSDP_bytes_of (payload : Json) (sdp : String)
    (hget : getFieldJ payload "sdp" = some (Json.str sdp))
    (htr : payload.truthy = true)
    (hesc : hasSubstrL escRN sdp.data = false)
    (c0 cb : Char) (rest : List Char)
    (hhead : (compressToBase64 (Json.stringify payload)).data = c0 :: cb :: rest) :
    parseSDPFromQR (byteSequenceOf (compressToBase64 (Json.stringify payload)))
      = some payload := by
  have hascii : ∀ c ∈ (compressToBase64 (Json.stringify payload)).data,
      c.toNat < 128 := fun c hc => (compress_chars_ascii _ c hc).1
  have hbytes2 : utf8Bytes (compressToBase64 (Json.stringify payload))
      = c0.toNat :: cb.toNat :: rest.map Char.toNat := by
    rw [utf8Bytes_ascii _ hascii, hhead]
    rfl
  have hblt : ∀ x ∈ c0.toNat :: cb.toNat :: rest.map Char.toNat, x < 128 := by
    intro x hx
    rcases List.mem_cons.mp hx with rfl | hx2
    · exact hascii c0 (by rw [hhead]; simp)
    rcases List.mem_cons.mp hx2 with rfl | hx3
    · exact hascii cb (by rw [hhead]; simp)
    · obtain ⟨c, hcm, rfl⟩ := List.mem_map.mp hx3
      exact hascii c (by rw [hhead]; simp [hcm])
  have hu : byteSequenceOf (compressToBase64 (Json.stringify payload))
      = ofChars (byteSeqL (c0.toNat :: cb.toNat :: rest.map Char.toNat)) := by
    rw [byteSequenceOf, hbytes2]
  obtain ⟨h1c, h1cs, hchead, hcheadd⟩ :=
    byteSeqL_head (cb.toNat :: rest.map Char.toNat) c0.toNat
  obtain ⟨init, clast, hlast, hlastd⟩ :=
    byteSeqL_last (cb.toNat :: rest.map Char.toNat) c0.toNat
  have htrim : jsTrim (ofChars (byteSeqL (c0.toNat :: cb.toNat :: rest.map Char.toNat)))
      = ofChars (byteSeqL (c0.toNat :: cb.toNat :: rest.map Char.toNat)) := by
    rw [jsTrim, data_ofChars,
      jsTrimL_ends _ _ _ hchead (isJsWs_digit _ hcheadd) init clast hlast
        (isJsWs_digit _ hlastd)]
  have hdec := decodeNumericBytes_byteSeq (cb.toNat :: rest.map Char.toNat) c0.toNat hblt
  have hofnat : ofChars ((c0.toNat :: cb.toNat :: rest.map Char.toNat).map Char.ofNat)
      = compressToBase64 (Json.stringify payload) := by
    have hm : (c0.toNat :: cb.toNat :: rest.map Char.toNat).map Char.ofNat
        = c0 :: cb :: rest := by
      simp [List.map_map, Char.ofNat_toNat, Function.comp]
      exact (List.map_congr_left (fun x _ => Char.ofNat_toNat x)).trans
        (List.map_id rest)
    rw [hm, ← hhead, ofChars_data]
  have hpctm : '%' ∉ byteSeqL (c0.toNat :: cb.toNat :: rest.map Char.toNat) := by
    intro hm
    rcases byteSeqL_chars _ '%' hm with hdig | hsp
    · exact absurd hdig (by decide)
    · exact absurd hsp (by decide)
  have hpct : hasPctEscape (byteSeqL (c0.toNat :: cb.toNat :: rest.map Char.toNat))
      = false := hasPctEscape_no_pct _ hpctm
  have hspm : ' ' ∈ byteSeqL (c0.toNat :: cb.toNat :: rest.map Char.toNat) := by
    rw [byteSeqL_cons]
    simp
  have hb64 : isB64Charset (byteSeqL (c0.toNat :: cb.toNat :: rest.map Char.toNat))
      = false := by
    have hall2 : (byteSeqL (c0.toNat :: cb.toNat :: rest.map Char.toNat)).all
        isB64SetChar = false := by
      rw [List.all_eq_false]
      exact ⟨' ', hspm, by simp [space_char_facts.2]⟩
    simp [isB64Charset, hall2]
  have hcand : qrCandidates
      (ofChars (byteSeqL (c0.toNat :: cb.toNat :: rest.map Char.toNat)))
      = [ofChars (byteSeqL (c0.toNat :: cb.toNat :: rest.map Char.toNat)),
         compressToBase64 (Json.stringify payload)] := by
    simp only [qrCandidates, htrim, data_ofChars, matchNumSeqL_byteSeq, hdec, hpct,
      hb64, hofnat]
    simp
  have hdc : decompressFromBase64
      (ofChars (byteSeqL (c0.toNat :: cb.toNat :: rest.map Char.toNat))) = none :=
    decompress_bad _ ' ' (by rw [data_ofChars]; exact hspm) space_char_facts.1
  have hjson : jsonParse
      (ofChars (byteSeqL (c0.toNat :: cb.toNat :: rest.map Char.toNat))) = none := by
    obtain ⟨c1, cs1, hc1, hc1d⟩ := byteSeqL_head (rest.map Char.toNat) cb.toNat
    obtain ⟨cd, cds, hcdh, hcdd⟩ := natDigits_head c0.toNat
    apply jsonParse_two_runs _ cd cds c1 cs1
    · rw [data_ofChars, byteSeqL_cons, hc1, hcdh]
      rfl
    · intro c hcm
      apply natDigits_mem_digit c0.toNat
      rw [hcdh]
      exact hcm
    · exact hc1d
  have htp : tryParse
      (ofChars (byteSeqL (c0.toNat :: cb.toNat :: rest.map Char.toNat))) = none := by
    simp only [tryParse, hdc, directParse, hjson]
  rw [hu, parseSDPFromQR, hcand, firstTruthy_cons_none _ _ htp]
  exact firstTruthy_cons_truthy _ _ payload
    (tryParse_encoded payload sdp hget htr hesc) htr

/-- C5: for every well-formed SessionDescription (trimmed text not opening
with a brace, reduced text free of the literal backslash-r-backslash-n
sequence), decoding the percent-encoding of the encoded token and decoding
the whitespace-separated decimal byte sequence of the token both yield the
same structure as decoding the token itself: the transported candidates are
recovered by the decoder's fallback candidates (percent decode, numeric
byte decode) while the direct and compression attempts on the transported
strings fail, so all three decodes agree. -/
theorem c5_fallback_equivalence (ty text : String)
    (hbrace : jsStartsWith (jsTrim text) "\x7b" = false)
    (hesc : hasSubstrL escRN (reduceSDP text).data = false) :
    parseSDPFromQR (percentEncode (formatSDPForQR (Json.obj
        [("type", Json.str ty), ("sdp", Json.str text)]))) =
      parseSDPFromQR (formatSDPForQR (Json.obj
        [("type", Json.str ty), ("sdp", Json.str text)])) ∧
    parseSDPFromQR (byteSequenceOf (formatSDPForQR (Json.obj
        [("type", Json.str ty), ("sdp", Json.str text)]))) =
      parseSDPFromQR (formatSDPForQR (Json.obj
        [("type", Json.str ty), ("sdp", Json.str text)])) := by
  rw [formatSDPForQR_wf ty text hbrace]
  obtain ⟨rest, hhead⟩ :=
    compress_head [("type", Json.str ty), ("sdp", Json.str (reduceSDP text))]
  have hget : getFieldJ (Json.obj
      [("type", Json.str ty), ("sdp", Json.str (reduceSDP text))]) "sdp"
      = some (Json.str (reduceSDP text)) := rfl
  have henc := parseSDP_encoded
    (Json.obj [("type", Json.str ty), ("sdp", Json.str (reduceSDP text))])
    (reduceSDP text) hget rfl hesc
  constructor
  · rw [parseSDP_percent_of _ (reduceSDP text) hget rfl hesc (alphaChar 27)
      (alphaChar 35 :: rest) hhead (by decide) (by decide) (by decide) (by decide)
      (by decide) (by decide) (by decide) (by decide), henc]
  · rw [parseSDP_bytes_of _ (reduceSDP text) hget rfl hesc (alphaChar 27)
      (alphaChar 35) rest hhead, henc]

theorem c5_fallback_witness :
    parseSDPFromQR (percentEncode (formatSDPForQR (Json.obj
        [("type", Json.str "offer"), ("sdp", Json.str "v=0")]))) =
      parseSDPFromQR (formatSDPForQR (Json.obj
        [("type", Json.str "offer"), ("sdp", Json.str "v=0")])) ∧
    parseSDPFromQR (byteSequenceOf (formatSDPForQR (Json.obj
        [("type", Json.str "offer"), ("sdp", Json.str "v=0")]))) =
      parseSDPFromQR (formatSDPForQR (Json.obj
        [("type", Json.str "offer"), ("sdp", Json.str "v=0")])) :=
  c5_fallback_equivalence "offer" "v=0" (by decide) (by decide)

/-- C10: encode is total by construction (formatSDPForQR is a total
function of the whole Json input space, including values with a missing or
non-string sdp field, which make formatBody return none, the model of the
thrown exception); whenever the body fails, the fallback returns the plain
JSON serialization of the unmodified input, and the decoder's direct-parse
path reads that serialization back exactly. -/
theorem c10_encode_fallback :
    (∀ data : Json, formatBody data = none →
      formatSDPForQR data = Json.stringify data) ∧
    (∀ data : Json, jsonParse (Json.stringify data) = some data) := by
  constructor
  · intro data hfail
    rw [formatSDPForQR, hfail]
  · exact jsonParse_stringify

theorem c10_encode_fallback_witness :
    formatSDPForQR Json.null = Json.stringify Json.null ∧
    jsonParse (Json.stringify Json.null) = some Json.null :=
  ⟨c10_encode_fallback.1 Json.null (by decide), c10_encode_fallback.2 Json.null⟩

/-! ## The Controller (src/App.tsx)

State machine of the App component. React state setters become record
updates; the engine (RTCPeerConnection) and media stream are modelled by
presence flags plus effect ledgers (ids of stopped tracks, count of closed
handles), since closing and stopping are externally observable effects of
endCall. Debug text is modelled without the wall-clock timestamp. -/

inductive AppState where
  | HOME
  | GENERATING_OFFER
  | SHOWING_OFFER
  | SCANNING_OFFER
  | GENERATING_ANSWER
  | SHOWING_ANSWER
  | SCANNING_ANSWER
  | CONNECTED
  | ERROR
deriving Repr, DecidableEq

inductive CallRole where
  | host
  | peer
deriving Repr, DecidableEq

structure Ctrl where
  appState : AppState
  role : Option CallRole
  error : Option String
  warning : Option String
  debugInfo : String
  qrCodeData : Option String
  signalString : String
  manualInputVal : String
  facingMode : String
  localStream : Option (List Nat)
  stoppedTracks : List Nat
  pc : Option Unit
  closedHandles : Nat
  remoteStream : Bool
deriving Repr, DecidableEq

/-- endCall (src/App.tsx lines 618-635): stop all tracks of the local
stream and clear it, close and clear the engine handle, drop the remote
stream, return to HOME, reset role, signal string, manual input and camera
facing. It does not touch error, warning, debug text or the QR image. -/
def endCall (st : Ctrl) : Ctrl :=
  let st1 :=
    match st.localStream with
    | some ts => { st with stoppedTracks := st.stoppedTracks ++ ts, localStream := none }
    | none => st
  let st2 :=
    match st1.pc with
    | some _ => { st1 with closedHandles := st1.closedHandles + 1, pc := none }
    | none => st1
  { st2 with
      remoteStream := false
      appState := AppState.HOME
      role := none
      signalString := ""
      manualInputVal := ""
      facingMode := "user" }

/-- The 15-second SHOWING_ANSWER fallback effect (lines 121-134) is armed
exactly while the state is SHOWING_ANSWER with an engine handle present;
its cleanup disarms it on any state change, so arming is a function of the
state. -/
def armedFallback (st : Ctrl) : Bool :=
  st.appState = AppState.SHOWING_ANSWER && st.pc.isSome

def answerErrMsg : String := "Invalid QR Code. Expected an Answer from the Caller."

/-- handleScanAnswer (lines 504-523): decode with parseSDPFromQR; a null
result or a type other than the exact string answer sets the error and
returns without touching anything else (except the debug text); a valid
answer is handed to processAnswer, which stands for the rest of the
asynchronous handshake. -/
def handleScanAnswer (processAnswer : Ctrl → Json → Ctrl) (st : Ctrl)
    (data : String) : Ctrl :=
  let st1 := { st with debugInfo := "ANSWER SCANNED: " ++ data }
  match parseSDPFromQR data with
  | none => { st1 with
      debugInfo := st1.debugInfo ++ " / parse failed"
      error := some answerErrMsg }
  | some signal =>
    if getFieldJ signal "type" = some (Json.str "answer") then
      processAnswer { st1 with debugInfo := st1.debugInfo ++ " / processing" } signal
    else
      { st1 with
          debugInfo := st1.debugInfo ++ " / parse failed"
          error := some answerErrMsg }

def ICE_GATHERING_TIMEOUT : Nat := 10000

/-- First polling tick (starting at i, for len ticks) at which gathering
reports complete. -/
def firstTickAux (complete : Nat → Bool) : Nat → Nat → Option Nat
  | _, 0 => none
  | i, len + 1 => if complete i then some i else firstTickAux complete (i + 1) len

/-- waitForIceGathering (lines 577-597) on a discrete 100-ms clock:
complete at registration time resolves at once with no timer armed; the
polling interval checks at 100, 200, ..., 9900 ms and on success clears
both timers; otherwise the 10-second timeout (registered first, so it runs
first at 10000 ms) resolves with a warning and does not clear the
interval. -/
inductive IceOutcome where
  | immediate
  | atTick (k : Nat)
  | timedOut
deriving Repr, DecidableEq

def waitForIce (complete : Nat → Bool) : IceOutcome :=
  if complete 0 then .immediate
  else
    match firstTickAux complete 1 99 with
    | some k => .atTick k
    | none => .timedOut

def iceResolveTime : IceOutcome → Nat
  | .immediate => 0
  | .atTick k => 100 * k
  | .timedOut => ICE_GATHERING_TIMEOUT

def iceWarns : IceOutcome → Bool
  | .timedOut => true
  | _ => false

def iceTimersCleared : IceOutcome → Bool
  | .immediate => true
  | .atTick _ => true
  | .timedOut => false

def iceWarningMsg : String := "Network discovery is taking longer than expected..."

def applyIceOutcome (st : Ctrl) (o : IceOutcome) : Ctrl :=
  if iceWarns o then { st with warning := some iceWarningMsg } else st

/-- The tail of startCall after the wait resolves (lines 362-372): build
the offer payload, encode it, store the signal string, show the offer. -/
def startCallFinish (st : Ctrl) (sdp : String) : Ctrl :=
  { st with
      signalString := formatSDPForQR (Json.obj
        [("type", Json.str "offer"), ("sdp", Json.str sdp)])
      appState := AppState.SHOWING_OFFER }

theorem firstTickAux_none (complete : Nat → Bool) (h : ∀ n, complete n = false) :
    ∀ (len i : Nat), firstTickAux complete i len = none := by
  intro len
  induction len with
  | zero => intro i; rfl
  | succ g ih =>
    intro i
    simp only [firstTickAux, h i]
    exact ih (i + 1)

theorem firstTickAux_range (complete : Nat → Bool) :
    ∀ (len i k : Nat), firstTickAux complete i len = some k → i ≤ k ∧ k < i + len := by
  intro len
  induction len with
  | zero => intro i k h; exact absurd h (by simp [firstTickAux])
  | succ g ih =>
    intro i k h
    simp only [firstTickAux] at h
    by_cases hc : complete i = true
    · rw [if_pos hc] at h
      simp only [Option.some.injEq] at h
      subst h
      omega
    · rw [if_neg hc] at h
      have := ih (i + 1) k h
      omega

theorem firstTickAux_finds (complete : Nat → Bool) :
    ∀ (len i k : Nat), i ≤ k → k < i + len →
      (∀ j, i ≤ j → j < k → complete j = false) → complete k = true →
      firstTickAux complete i len = some k := by
  intro len
  induction len with
  | zero => intro i k h1 h2 _ _; omega
  | succ g ih =>
    intro i k h1 h2 hbefore hk
    simp only [firstTickAux]
    by_cases hik : i = k
    · subst hik
      rw [if_pos hk]
    · have hci : complete i = false := hbefore i (le_refl i) (by omega)
      rw [if_neg (by simp [hci])]
      exact ih (i + 1) k (by omega) (by omega)
        (fun j hj1 hj2 => hbefore j (by omega) hj2) hk

/-- C7: scanning a token whose decoded kind is offer while awaiting an
answer leaves every state field unchanged (app state, role, signal string,
manual input, camera facing, media stream, engine handle, effect ledgers,
remote stream, warning) - only the error message (the type-mismatch error)
and the debug text change, and the asynchronous answer processing is never
invoked; the session is not torn down. -/
theorem c7_answer_type_mismatch (processAnswer : Ctrl → Json → Ctrl) (st : Ctrl)
    (data : String) (signal : Json)
    (hp : parseSDPFromQR data = some signal)
    (hty : getFieldJ signal "type" = some (Json.str "offer")) :
    (handleScanAnswer processAnswer st data).appState = st.appState ∧
    (handleScanAnswer processAnswer st data).role = st.role ∧
    (handleScanAnswer processAnswer st data).signalString = st.signalString ∧
    (handleScanAnswer processAnswer st data).manualInputVal = st.manualInputVal ∧
    (handleScanAnswer processAnswer st data).facingMode = st.facingMode ∧
    (handleScanAnswer processAnswer st data).localStream = st.localStream ∧
    (handleScanAnswer processAnswer st data).stoppedTracks = st.stoppedTracks ∧
    (handleScanAnswer processAnswer st data).pc = st.pc ∧
    (handleScanAnswer processAnswer st data).closedHandles = st.closedHandles ∧
    (handleScanAnswer processAnswer st data).remoteStream = st.remoteStream ∧
    (handleScanAnswer processAnswer st data).warning = st.warning ∧
    (handleScanAnswer processAnswer st data).error = some answerErrMsg := by
  have hne : ¬(getFieldJ signal "type" = some (Json.str "answer")) := by
    rw [hty]
    intro he
    simp only [Option.some.injEq] at he
    exact absurd he (by decide)
  unfold handleScanAnswer
  simp only [hp]
  rw [if_neg hne]
  exact ⟨rfl, rfl, rfl, rfl, rfl, rfl, rfl, rfl, rfl, rfl, rfl, rfl⟩

theorem c7_answer_type_mismatch_witness :
    (handleScanAnswer (fun s _ => s)
        (Ctrl.mk AppState.SCANNING_ANSWER (some CallRole.host) none none "" none
          "sig" "man" "user" (some [0]) [] (some ()) 0 false)
        "\x7b\"type\":\"offer\",\"sdp\":\"x\"\x7d").appState
      = AppState.SCANNING_ANSWER ∧
    (handleScanAnswer (fun s _ => s)
        (Ctrl.mk AppState.SCANNING_ANSWER (some CallRole.host) none none "" none
          "sig" "man" "user" (some [0]) [] (some ()) 0 false)
        "\x7b\"type\":\"offer\",\"sdp\":\"x\"\x7d").error = some answerErrMsg := by
  have h := c7_answer_type_mismatch (fun s _ => s)
    (Ctrl.mk AppState.SCANNING_ANSWER (some CallRole.host) none none "" none
      "sig" "man" "user" (some [0]) [] (some ()) 0 false)
    "\x7b\"type\":\"offer\",\"sdp\":\"x\"\x7d"
    (Json.obj [("type", Json.str "offer"), ("sdp", Json.str "x")])
    (by decide) (by decide)
  exact ⟨h.1, h.2.2.2.2.2.2.2.2.2.2.2⟩

/-- C8: the wait for candidate gathering always resolves within the fixed
10-second timeout; if gathering never reports complete it resolves exactly
at the timeout, raising only the non-fatal warning (the error field is
untouched and the offer-showing state is still reached); if gathering is
already complete at registration it resolves at once; if it completes at a
polling tick inside the window the wait resolves there, strictly before
the timeout, with both timers cancelled and no warning. -/
theorem c8_ice_wait_bound :
    (∀ complete : Nat → Bool,
      iceResolveTime (waitForIce complete) ≤ ICE_GATHERING_TIMEOUT) ∧
    (∀ complete : Nat → Bool, (∀ n, complete n = false) →
      waitForIce complete = IceOutcome.timedOut ∧
      iceResolveTime (waitForIce complete) = ICE_GATHERING_TIMEOUT ∧
      iceWarns (waitForIce complete) = true ∧
      ∀ (st : Ctrl) (sdp : String),
        (startCallFinish (applyIceOutcome st (waitForIce complete)) sdp).appState
          = AppState.SHOWING_OFFER ∧
        (startCallFinish (applyIceOutcome st (waitForIce complete)) sdp).warning
          = some iceWarningMsg ∧
        (startCallFinish (applyIceOutcome st (waitForIce complete)) sdp).error
          = st.error) ∧
    (∀ complete : Nat → Bool, complete 0 = true →
      waitForIce complete = IceOutcome.immediate ∧
      iceResolveTime (waitForIce complete) = 0 ∧
      iceTimersCleared (waitForIce complete) = true) ∧
    (∀ (complete : Nat → Bool) (k : Nat), 1 ≤ k → k ≤ 99 →
      (∀ j, j < k → complete j = false) → complete k = true →
      waitForIce complete = IceOutcome.atTick k ∧
      iceResolveTime (waitForIce complete) = 100 * k ∧
      iceResolveTime (waitForIce complete) < ICE_GATHERING_TIMEOUT ∧
      iceTimersCleared (waitForIce complete) = true ∧
      iceWarns (waitForIce complete) = false) := by
  refine ⟨?_, ?_, ?_, ?_⟩
  · intro complete
    unfold waitForIce
    by_cases h0 : complete 0 = true
    · rw [if_pos h0]
      simp [iceResolveTime, ICE_GATHERING_TIMEOUT]
    · rw [if_neg h0]
      rcases hft : firstTickAux complete 1 99 with _ | k
      · simp [iceResolveTime]
      · have hr := firstTickAux_range complete 99 1 k hft
        simp only [iceResolveTime, ICE_GATHERING_TIMEOUT]
        omega
  · intro complete hnone
    have hw : waitForIce complete = IceOutcome.timedOut := by
      unfold waitForIce
      rw [if_neg (by simp [hnone 0])]
      rw [firstTickAux_none complete hnone 99 1]
    refine ⟨hw, by rw [hw]; rfl, by rw [hw]; rfl, ?_⟩
    intro st sdp
    rw [hw]
    refine ⟨rfl, ?_, ?_⟩
    · simp [startCallFinish, applyIceOutcome, iceWarns]
    · simp [startCallFinish, applyIceOutcome, iceWarns]
  · intro complete h0
    have hw : waitForIce complete = IceOutcome.immediate := by
      unfold waitForIce
      rw [if_pos h0]
    exact ⟨hw, by rw [hw]; rfl, by rw [hw]; rfl⟩
  · intro complete k hk1 hk99 hbefore hk
    have hw : waitForIce complete = IceOutcome.atTick k := by
      unfold waitForIce
      rw [if_neg (by simp [hbefore 0 (by omega)])]
      rw [firstTickAux_finds complete 99 1 k (by omega) (by omega)
        (fun j _ hj => hbefore j hj) hk]
    refine ⟨hw, by rw [hw]; rfl, ?_, by rw [hw]; rfl, by rw [hw]; rfl⟩
    rw [hw]
    simp only [iceResolveTime, ICE_GATHERING_TIMEOUT]
    omega

theorem c8_ice_wait_witness :
    waitForIce (fun _ => false) = IceOutcome.timedOut ∧
    waitForIce (fun n => decide (n = 3)) = IceOutcome.atTick 3 ∧
    iceResolveTime (waitForIce (fun n => decide (n = 3))) = 300 := by
  have h1 := (c8_ice_wait_bound.2.1 (fun _ => false) (fun _ => rfl)).1
  have h2 := c8_ice_wait_bound.2.2.2 (fun n => decide (n = 3)) 3 (by decide)
    (by decide) (fun j hj => by simp; omega) (by decide)
  exact ⟨h1, h2.1, h2.2.1⟩

/-- C9: endCall is a total function of the whole state space and is
idempotent; from every state it lands in HOME with the role, signal
string, manual input and camera facing reset, the local stream cleared
with every one of its tracks stopped, the engine handle closed and
cleared, the remote stream dropped, and the SHOWING_ANSWER fallback timer
disarmed; it raises no error and touches neither the error nor the warning
field. -/
theorem c9_endCall_idempotent :
    (∀ st : Ctrl, endCall (endCall st) = endCall st) ∧
    (∀ st : Ctrl,
      (endCall st).appState = AppState.HOME ∧
      (endCall st).role = none ∧
      (endCall st).signalString = "" ∧
      (endCall st).manualInputVal = "" ∧
      (endCall st).facingMode = "user" ∧
      (endCall st).localStream = none ∧
      (endCall st).pc = none ∧
      (endCall st).remoteStream = false ∧
      (endCall st).error = st.error ∧
      (endCall st).warning = st.warning ∧
      armedFallback (endCall st) = false ∧
      (∀ ts, st.localStream = some ts → ∀ i ∈ ts, i ∈ (endCall st).stoppedTracks)) := by
  constructor
  · intro st
    rcases hls : st.localStream with _ | ts <;> rcases hpc : st.pc with _ | u <;>
      simp [endCall, hls, hpc]
  · intro st
    rcases hls : st.localStream with _ | ts <;> rcases hpc : st.pc with _ | u <;>
      simp [endCall, hls, hpc, armedFallback] <;>
      exact fun i hi => Or.inr hi

theorem c9_endCall_witness :
    (endCall (Ctrl.mk AppState.CONNECTED (some CallRole.host) none none "" none
      "s" "m" "env" (some [1, 2]) [] (some ()) 0 true)).appState = AppState.HOME ∧
    1 ∈ (endCall (Ctrl.mk AppState.CONNECTED (some CallRole.host) none none "" none
      "s" "m" "env" (some [1, 2]) [] (some ()) 0 true)).stoppedTracks := by
  have h := c9_endCall_idempotent.2
    (Ctrl.mk AppState.CONNECTED (some CallRole.host) none none "" none
      "s" "m" "env" (some [1, 2]) [] (some ()) 0 true)
  exact ⟨h.1, h.2.2.2.2.2.2.2.2.2.2.2 [1, 2] rfl 1 (by decide)⟩
